import Mathlib

/-!
Verification development for the AI form generator repository.

The core under study is the JSON extraction cascade and the schema
validators of `src/app/layout.tsx` (`generateFormInternal`, the extraction
and validation phase, lines 135-230) and `src/lib/form-validator.ts`
(`validateFormSchema`).  Strings are modelled as `List Char`; the
JavaScript `JSON.parse` / `JSON.stringify(v, null, 2)` builtins are
modelled by an executable recursive-descent parser and a pretty printer
over a `Json` value type.  JavaScript numbers are modelled by their JSON
source lexeme (finite-double identification is outside the model).
-/

namespace AFG

/-! ### Characters that the linter rules keep out of literals -/

/-- Opening curly brace character. -/
def lbrace : Char := Char.ofNat 123

/-- Closing curly brace character. -/
def rbrace : Char := Char.ofNat 125

/-- Double-quote character. -/
def dq : Char := Char.ofNat 34

/-- Backslash character. -/
def bsl : Char := Char.ofNat 92

/-- Backtick character. -/
def btick : Char := Char.ofNat 96

/-- Shorthand turning a Lean string literal into the character-list model. -/
def strL (s : String) : List Char := s.toList

/-! ### Whitespace predicates -/

/-- Whitespace for the JSON grammar: space, tab, line feed, carriage return.
This is exactly the set `JSON.parse` skips between tokens. -/
def isJsonWs (c : Char) : Bool :=
  c = ' ' || c = Char.ofNat 9 || c = Char.ofNat 10 || c = Char.ofNat 13

/-- Whitespace for `String.prototype.trim` and the regex class `\s`:
tab, LF, VT, FF, CR, space, NBSP, LS, PS, BOM.  (The remaining Unicode
space separators are omitted from the model; no claim depends on them.) -/
def isTrimWs (c : Char) : Bool :=
  c.toNat = 9 || c.toNat = 10 || c.toNat = 11 || c.toNat = 12 || c.toNat = 13 ||
  c.toNat = 32 || c.toNat = 160 || c.toNat = 8232 || c.toNat = 8233 || c.toNat = 65279

/-- Model of `String.prototype.trim`: drop leading and trailing whitespace. -/
def trimWs (s : List Char) : List Char :=
  ((s.dropWhile isTrimWs).reverse.dropWhile isTrimWs).reverse

/-! ### The Json value type

Decoded JavaScript JSON values.  `num` carries the source lexeme of the
number (e.g. `1`, `-2.5e3`); `JSON.stringify` of a parsed number prints its
canonical lexeme, which the model identifies with the stored one.  Object
member order is insertion order, as in JavaScript. -/

inductive Json where
  | null
  | bool (b : Bool)
  | num (lex : List Char)
  | str (s : List Char)
  | arr (elems : List Json)
  | obj (members : List (List Char × Json))

mutual

/-- Boolean structural equality on `Json` (the nested inductive blocks the
derive handler, so the instance is built from this by hand). -/
def jeq : Json → Json → Bool
  | Json.null, Json.null => true
  | Json.bool a, Json.bool b => a = b
  | Json.num a, Json.num b => a = b
  | Json.str a, Json.str b => a = b
  | Json.arr a, Json.arr b => jeqList a b
  | Json.obj a, Json.obj b => jeqMembers a b
  | _, _ => false

/-- Boolean equality on element lists. -/
def jeqList : List Json → List Json → Bool
  | [], [] => true
  | x :: xs, y :: ys => jeq x y && jeqList xs ys
  | _, _ => false

/-- Boolean equality on member lists. -/
def jeqMembers : List (List Char × Json) → List (List Char × Json) → Bool
  | [], [] => true
  | (k1, v1) :: xs, (k2, v2) :: ys => k1 = k2 && jeq v1 v2 && jeqMembers xs ys
  | _, _ => false

end

mutual

/-- Soundness and completeness of `jeq`, as a definition so the decidable
equality instance can be set up inside the definition section. -/
def jeqIff : ∀ a b : Json, jeq a b = true ↔ a = b
  | Json.null, b => by cases b <;> simp [jeq]
  | Json.bool x, b => by cases b <;> simp [jeq]
  | Json.num x, b => by cases b <;> simp [jeq]
  | Json.str x, b => by cases b <;> simp [jeq]
  | Json.arr xs, b => by
      cases b <;> simp [jeq]
      exact jeqListIff xs _
  | Json.obj xs, b => by
      cases b <;> simp [jeq]
      exact jeqMembersIff xs _

/-- List version of `jeqIff`. -/
def jeqListIff : ∀ a b : List Json, jeqList a b = true ↔ a = b
  | [], b => by cases b <;> simp [jeqList]
  | x :: xs, [] => by simp [jeqList]
  | x :: xs, y :: ys => by
      simp [jeqList, jeqIff x y, jeqListIff xs ys]

/-- Member-list version of `jeqIff`. -/
def jeqMembersIff :
    ∀ a b : List (List Char × Json), jeqMembers a b = true ↔ a = b
  | [], b => by cases b <;> simp [jeqMembers]
  | x :: xs, [] => by simp [jeqMembers]
  | (k1, v1) :: xs, (k2, v2) :: ys => by
      simp [jeqMembers, jeqIff v1 v2, jeqMembersIff xs ys, and_assoc]

end

instance : DecidableEq Json := fun a b => decidable_of_iff (jeq a b = true) (jeqIff a b)

/-! ### Number lexer (strict JSON grammar, as `JSON.parse` enforces) -/

/-- Decimal digit test. -/
def isDigitCh (c : Char) : Bool := 48 ≤ c.toNat && c.toNat ≤ 57

/-- Optional exponent part: `e`/`E`, optional sign, one or more digits.
Returns the consumed lexeme extension and the remainder. -/
def numExpPart (s : List Char) : Option (List Char × List Char) :=
  match s with
  | c :: cs =>
    if c = 'e' || c = 'E' then
      match cs with
      | [] => none
      | d :: ds =>
        if d = '+' || d = '-' then
          let (digs, rest) := ds.span isDigitCh
          if digs = [] then none else some (c :: d :: digs, rest)
        else
          let (digs, rest) := (d :: ds).span isDigitCh
          if digs = [] then none else some (c :: digs, rest)
    else some ([], s)
  | [] => some ([], [])

/-- Optional fraction part: a dot followed by one or more digits. -/
def numFracPart (s : List Char) : Option (List Char × List Char) :=
  match s with
  | c :: cs =>
    if c = '.' then
      let (digs, rest) := cs.span isDigitCh
      if digs = [] then none else some (c :: digs, rest)
    else some ([], s)
  | [] => some ([], [])

/-- Integer part of a JSON number after the optional sign: a lone `0`, or a
nonzero digit followed by any digits (leading zeros are a syntax error). -/
def numIntPart (s : List Char) : Option (List Char × List Char) :=
  match s with
  | c :: cs =>
    if c = '0' then some ([c], cs)
    else if isDigitCh c then
      let (digs, rest) := cs.span isDigitCh
      some (c :: digs, rest)
    else none
  | [] => none

/-- Continue a number lexeme after the integer part: optional fraction,
optional exponent, prefixed by what was already consumed. -/
def numAfterInt (pre s2 : List Char) : Option (List Char × List Char) :=
  match numFracPart s2 with
  | none => none
  | some (fp, s3) =>
    match numExpPart s3 with
    | none => none
    | some (ep, s4) => some (pre ++ (fp ++ ep), s4)

/-- Lex one JSON number from the front of `s`: optional minus sign, integer
part, optional fraction, optional exponent.  Returns the full lexeme and
the remainder. -/
def parseNumber (s : List Char) : Option (List Char × List Char) :=
  match s with
  | [] => none
  | c :: cs =>
    if c = '-' then
      match numIntPart cs with
      | none => none
      | some (ip, s2) => numAfterInt (c :: ip) s2
    else
      match numIntPart (c :: cs) with
      | none => none
      | some (ip, s2) => numAfterInt ip s2

/-! ### String body lexer -/

/-- Value of one hexadecimal digit character. -/
def hexVal (c : Char) : Option Nat :=
  if 48 ≤ c.toNat && c.toNat ≤ 57 then some (c.toNat - 48)
  else if 97 ≤ c.toNat && c.toNat ≤ 102 then some (c.toNat - 87)
  else if 65 ≤ c.toNat && c.toNat ≤ 70 then some (c.toNat - 55)
  else none

/-- Character denoted by a non-escape byte after a backslash, if legal. -/
def escCode (e : Char) : Option Char :=
  if e = dq then some dq
  else if e = bsl then some bsl
  else if e = '/' then some '/'
  else if e = 'b' then some (Char.ofNat 8)
  else if e = 'f' then some (Char.ofNat 12)
  else if e = 'n' then some (Char.ofNat 10)
  else if e = 'r' then some (Char.ofNat 13)
  else if e = 't' then some (Char.ofNat 9)
  else none

/-- Parse a string body after the opening quote, up to and including the
closing quote.  Raw control characters are a syntax error; `\uXXXX` is
accepted for scalar values (surrogate halves, which `List Char` cannot
carry, are rejected — a modelling boundary no claim touches). -/
def parseStringBody : List Char → Option (List Char × List Char)
  | [] => none
  | c :: cs =>
    if c = dq then some ([], cs)
    else if c = bsl then
      match cs with
      | [] => none
      | e :: cs1 =>
        if e = 'u' then
          match cs1 with
          | h1 :: h2 :: h3 :: h4 :: cs2 =>
            match hexVal h1, hexVal h2, hexVal h3, hexVal h4 with
            | some a, some b, some c3, some d =>
              let n := ((a * 16 + b) * 16 + c3) * 16 + d
              if 55296 ≤ n && n ≤ 57343 then none
              else
                match parseStringBody cs2 with
                | some (body, rest) => some (Char.ofNat n :: body, rest)
                | none => none
            | _, _, _, _ => none
          | _ => none
        else
          match escCode e with
          | some ch =>
            match parseStringBody cs1 with
            | some (body, rest) => some (ch :: body, rest)
            | none => none
          | none => none
    else if c.toNat < 32 then none
    else
      match parseStringBody cs with
      | some (body, rest) => some (c :: body, rest)
      | none => none

/-! ### Object member accumulation

JavaScript object literals built by `JSON.parse` keep the first position of
a duplicated key but its last value.  `setMember` updates in place when the
key exists and appends otherwise; `dedupeMembers` folds a raw member list
through it. -/

/-- Replace the value at `k` in place, or append `(k, v)` when absent. -/
def setMember : List (List Char × Json) → List Char → Json → List (List Char × Json)
  | [], k, v => [(k, v)]
  | (k1, v1) :: tl, k, v =>
    if k1 = k then (k1, v) :: tl else (k1, v1) :: setMember tl k v

/-- Fold a raw member list into a JavaScript object: last value wins for a
duplicated key, first occurrence keeps the position. -/
def dedupeMembers (raw : List (List Char × Json)) : List (List Char × Json) :=
  raw.foldl (fun acc kv => setMember acc kv.1 kv.2) []

/-! ### The recursive-descent parser (structural on a fuel counter) -/

/-- Skip JSON whitespace. -/
def skipWs (s : List Char) : List Char := s.dropWhile isJsonWs

mutual

/-- Parse one JSON value from the front of the input (after optional
whitespace), as `JSON.parse` does, returning the value and the remainder. -/
def parseVal : Nat → List Char → Option (Json × List Char)
  | 0, _ => none
  | fuel + 1, s =>
    match skipWs s with
    | [] => none
    | c :: cs =>
      if c = 'n' then
        match cs with
        | 'u' :: 'l' :: 'l' :: r => some (Json.null, r)
        | _ => none
      else if c = 't' then
        match cs with
        | 'r' :: 'u' :: 'e' :: r => some (Json.bool true, r)
        | _ => none
      else if c = 'f' then
        match cs with
        | 'a' :: 'l' :: 's' :: 'e' :: r => some (Json.bool false, r)
        | _ => none
      else if c = dq then
        match parseStringBody cs with
        | some (body, rest) => some (Json.str body, rest)
        | none => none
      else if c = '-' || isDigitCh c then
        match parseNumber (c :: cs) with
        | some (lex, rest) => some (Json.num lex, rest)
        | none => none
      else if c = '[' then
        match skipWs cs with
        | [] => none
        | d :: ds =>
          if d = ']' then some (Json.arr [], ds)
          else
            match parseElems fuel (d :: ds) with
            | some (es, rest) => some (Json.arr es, rest)
            | none => none
      else if c = lbrace then
        match skipWs cs with
        | [] => none
        | d :: ds =>
          if d = rbrace then some (Json.obj [], ds)
          else
            match parseMembers fuel (d :: ds) with
            | some (raw, rest) => some (Json.obj (dedupeMembers raw), rest)
            | none => none
      else none

/-- Parse one or more comma-separated array elements up to and including
the closing bracket. -/
def parseElems : Nat → List Char → Option (List Json × List Char)
  | 0, _ => none
  | fuel + 1, s =>
    match parseVal fuel s with
    | none => none
    | some (v, r1) =>
      match skipWs r1 with
      | [] => none
      | c :: r2 =>
        if c = ',' then
          match parseElems fuel r2 with
          | some (vs, rest) => some (v :: vs, rest)
          | none => none
        else if c = ']' then some ([v], r2)
        else none

/-- Parse one or more comma-separated object members up to and including
the closing brace.  Members are returned raw, in source order. -/
def parseMembers : Nat → List Char → Option (List (List Char × Json) × List Char)
  | 0, _ => none
  | fuel + 1, s =>
    match skipWs s with
    | [] => none
    | c :: cs =>
      if c = dq then
        match parseStringBody cs with
        | none => none
        | some (key, r1) =>
          match skipWs r1 with
          | [] => none
          | c2 :: r2 =>
            if c2 = ':' then
              match parseVal fuel r2 with
              | none => none
              | some (v, r3) =>
                match skipWs r3 with
                | [] => none
                | c3 :: r4 =>
                  if c3 = ',' then
                    match parseMembers fuel r4 with
                    | some (ms, rest) => some ((key, v) :: ms, rest)
                    | none => none
                  else if c3 = rbrace then some ([(key, v)], r4)
                  else none
            else none
      else none

end

/-- Model of `JSON.parse` on a whole document: one value, possibly
surrounded by whitespace, nothing else.  The fuel `2 * length + 4` covers
any input, because each nesting level consumes at least one character. -/
def jsonParseFull (s : List Char) : Option Json :=
  match parseVal (2 * s.length + 4) s with
  | some (v, rest) => if skipWs rest = [] then some v else none
  | none => none

/-! ### The extraction cascade of `generateFormInternal`
(`src/app/layout.tsx`, lines 135-212).

The code first cleans the raw completion text in place — trim, strip
Markdown fences, cut to the first `lbrace` / last `rbrace` span — then
tries `JSON.parse` on the cleaned string, falling through a regex
re-extraction, a boundary re-extraction, and a depth-balanced scan.  The
error finally reported interpolates `parseError`, the exception of the
FIRST (primary) parse attempt, and the first 1000 characters of the
cleaned string go to `console.error`, not into the returned message. -/

/-- Three-backtick fence marker. -/
def fenceMark : List Char := [btick, btick, btick]

/-- Fence marker with the `json` language tag. -/
def fenceJson : List Char := fenceMark ++ ['j', 's', 'o', 'n']

/-- Model of `.replace(/\s*```$/i, lit)` with an empty replacement: when the
text ends in a fence, drop it and the run of whitespace just before it. -/
def dropSuffixFence (s : List Char) : List Char :=
  if fenceMark.isSuffixOf s then ((s.reverse.drop 3).dropWhile isTrimWs).reverse
  else s

/-- Steps 1-2 of the cleaning: strip a leading code fence (with or without
the `json` tag) and, when one was found, a trailing fence.  Mirrors the two
`startsWith` branches of the source. -/
def stripFences (s : List Char) : List Char :=
  if fenceJson.isPrefixOf s then dropSuffixFence ((s.drop 7).dropWhile isTrimWs)
  else if fenceMark.isPrefixOf s then dropSuffixFence ((s.drop 3).dropWhile isTrimWs)
  else s

/-- Index of the first occurrence of `c`, as `String.prototype.indexOf`
(with `none` for the sentinel -1). -/
def firstIdx (c : Char) : List Char → Option Nat
  | [] => none
  | x :: xs => if x = c then some 0 else (firstIdx c xs).map (· + 1)

/-- Index of the last occurrence of `c`, as `String.prototype.lastIndexOf`. -/
def lastIdx (c : Char) (s : List Char) : Option Nat :=
  (firstIdx c s.reverse).map (fun i => s.length - 1 - i)

/-- Model of `s.substring(a, b)`. -/
def substringL (s : List Char) (a b : Nat) : List Char := (s.drop a).take (b - a)

/-- The span from the first `lbrace` to the last `rbrace`, when the last
strictly follows the first.  This is the candidate computed three times by
the source: cleaning step 3 and fallback B via `indexOf` / `lastIndexOf` /
`substring`, and fallback A as the regex match of the brace-to-brace
pattern, whose leftmost-longest match is the same span: the match must
start at the first opening brace that a closing brace follows, and the
greedy middle extends it to the last closing brace of the text. -/
def braceSpan (s : List Char) : Option (List Char) :=
  match firstIdx lbrace s, lastIdx rbrace s with
  | some fb, some lb => if fb < lb then some (substringL s fb (lb + 1)) else none
  | some _, none => none
  | none, _ => none

/-- Cleaning step 3: replace the text by its brace span when one exists. -/
def boundaryTrim (s : List Char) : List Char :=
  match braceSpan s with
  | some m => m
  | none => s

/-- The cleaned candidate string handed to the primary parse: trim, fence
strip, boundary cut, in that order. -/
def cleanInput (raw : List Char) : List Char :=
  boundaryTrim (stripFences (trimWs raw))

/-- State machine of fallback C, the depth-balanced scan: `depth` counts
raw braces, `cur` buffers the characters of the span opened when depth
rose from zero (the source tracks the same span by its start index), and
`acc` collects completed candidates in scan order. -/
def scanGo : Int → Option (List Char) → List (List Char) → List Char → List (List Char)
  | _, _, acc, [] => acc
  | depth, cur, acc, c :: cs =>
    if c = lbrace then
      if depth = 0 then scanGo (depth + 1) (some [lbrace]) acc cs
      else scanGo (depth + 1) (cur.map (fun b => b ++ [lbrace])) acc cs
    else if c = rbrace then
      match cur with
      | some b =>
        if depth - 1 = 0 then scanGo (depth - 1) none (acc ++ [b ++ [rbrace]]) cs
        else scanGo (depth - 1) (some (b ++ [rbrace])) acc cs
      | none => scanGo (depth - 1) none acc cs
    else scanGo depth (cur.map (fun b => b ++ [c])) acc cs

/-- All complete balanced-brace candidate spans of the text, in scan
order. -/
def scanObjs (s : List Char) : List (List Char) := scanGo 0 none [] s

/-- Model of `jsonObjects.reduce((a, b) => (a.length > b.length ? a : b))`:
keep the accumulator only when strictly longer, so a tie moves to the
later element. -/
def pickLargest : List (List Char) → Option (List Char)
  | [] => none
  | x :: xs => some (xs.foldl (fun a b => if b.length < a.length then a else b) x)

/-- Diagnostic payload of a failed extraction: the cleaned candidate whose
primary parse raised the reported `parseError`, and the excerpt the code
logs to the console (`jsonString.substring(0, 1000)` — the cleaned string,
not the original input). -/
structure FailInfo where
  primaryCandidate : List Char
  loggedExcerpt : List Char
deriving DecidableEq

/-- Which decode attempt of the cascade produced the recovered value. -/
inductive Stage where
  | primary
  | regexFb
  | boundaryFb
  | depthScan
deriving DecidableEq

/-- Outcome of the extraction cascade. -/
inductive ExtractResult where
  | recovered (v : Json) (stage : Stage)
  | failed (info : FailInfo)
deriving DecidableEq

/-- Fallback C: depth-balanced scan, decode the largest candidate; on any
failure the innermost catch returns the `Failed` outcome built from the
primary parse error. -/
def extractStageC (t2 : List Char) (info : FailInfo) : ExtractResult :=
  match pickLargest (scanObjs t2) with
  | some cand =>
    match jsonParseFull cand with
    | some v => ExtractResult.recovered v Stage.depthScan
    | none => ExtractResult.failed info
  | none => ExtractResult.failed info

/-- Fallback B: re-apply the first-brace/last-brace boundaries and decode;
a failure falls through to fallback C. -/
def extractStageB (t2 : List Char) (info : FailInfo) : ExtractResult :=
  match braceSpan t2 with
  | some m =>
    match jsonParseFull m with
    | some v => ExtractResult.recovered v Stage.boundaryFb
    | none => extractStageC t2 info
  | none => extractStageC t2 info

/-- Fallback A: regex capture of the brace-to-brace span and decode; a
failure (no match, or a parse error) falls through to fallback B. -/
def extractStageA (t2 : List Char) (info : FailInfo) : ExtractResult :=
  match braceSpan t2 with
  | some m =>
    match jsonParseFull m with
    | some v => ExtractResult.recovered v Stage.regexFb
    | none => extractStageB t2 info
  | none => extractStageB t2 info

/-- The whole extraction phase of `generateFormInternal`: clean the raw
completion text, try the primary parse, then fall through the cascade. -/
def extract (raw : List Char) : ExtractResult :=
  let t2 := cleanInput raw
  match jsonParseFull t2 with
  | some v => ExtractResult.recovered v Stage.primary
  | none => extractStageA t2 (FailInfo.mk t2 (t2.take 1000))

/-- Fixed prefix of the failure message built at the innermost catch. -/
def failMsgPre : List Char :=
  strL ("Failed to parse AI response. Tried multiple parsing strategies. Error: ")

/-- Fixed suffix of the failure message. -/
def failMsgPost : List Char := strL (". Please try again.")

/-- Host `JSON.parse` error text for a failing candidate.  The host message
is engine-defined and mentions only the text handed to the failing parse;
the model stands it in by that text itself. -/
def hostErrMsg (candidate : List Char) : List Char := candidate

/-- The user-facing message of a `Failed` outcome: the fixed template with
the primary parse error interpolated. -/
def failedMessage (info : FailInfo) : List Char :=
  failMsgPre ++ hostErrMsg info.primaryCandidate ++ failMsgPost

/-! ### JavaScript value helpers for the validators -/

/-- JavaScript truthiness of a decoded JSON value.  A number is falsy
exactly when its mantissa digits are all zero (`0`, `-0`, `0.0e5`, ...). -/
def jsTruthy : Json → Bool
  | Json.null => false
  | Json.bool b => b
  | Json.num lex =>
    !(((lex.dropWhile (· = '-')).takeWhile (fun c => c ≠ 'e' && c ≠ 'E')).all
        (fun c => c = '0' || c = '.'))
  | Json.str s => s ≠ []
  | Json.arr _ => true
  | Json.obj _ => true

/-- Look up an object member by key (objects decoded from JSON have unique
keys, so first match suffices). -/
def lookupMem : List (List Char × Json) → List Char → Option Json
  | [], _ => none
  | (k, v) :: tl, key => if k = key then some v else lookupMem tl key

/-- A fault thrown by JavaScript evaluation: reading a property of
`null`. -/
inductive JsFault where
  | typeErrorRead (key : List Char)
deriving DecidableEq

/-- Host text of a thrown `TypeError` (engine-defined; the model keeps the
shape V8 uses, without quotes around the key). -/
def faultMessage : JsFault → List Char
  | JsFault.typeErrorRead k =>
    strL ("Cannot read properties of null (reading ") ++ k ++ strL (")")

/-- Property read `v[key]` on a decoded JSON value: `null` throws, objects
look the key up, every other value yields `undefined` (`none`). -/
def getProp (v : Json) (k : List Char) : Except JsFault (Option Json) :=
  match v with
  | Json.null => Except.error (JsFault.typeErrorRead k)
  | Json.obj ms => Except.ok (lookupMem ms k)
  | _ => Except.ok none

/-- Truthiness of a property-read result (`undefined` is falsy). -/
def optTruthy : Option Json → Bool
  | none => false
  | some j => jsTruthy j

/-- Key `formTitle`. -/
def keyFormTitle : List Char := strL ("formTitle")

/-- Key `fields`. -/
def keyFields : List Char := strL ("fields")

/-- Key `id`. -/
def keyId : List Char := strL ("id")

/-- Key `label`. -/
def keyLabel : List Char := strL ("label")

/-- Key `type`. -/
def keyType : List Char := strL ("type")

/-! ### The import validator (`src/lib/form-validator.ts`) -/

/-- Result record of `validateFormSchema`. -/
structure ValidationResult where
  isValid : Bool
  error : Option (List Char)
deriving DecidableEq

/-- Error text for a value that is not a non-null object. -/
def errNotObject : List Char := strL ("Invalid JSON file: not a valid object")

/-- Error text for a missing or non-array `fields` property. -/
def errMissingFields : List Char := strL ("Invalid JSON file: missing fields array")

/-- Error text for a field element without `id`, `label` or `type`. -/
def errFieldProps : List Char :=
  strL ("Invalid JSON file: missing required field properties")

/-- The `for (const field of formSchema.fields)` loop of the import
validator: first failure wins; reading a property of a `null` element
throws out of the function. -/
def validateFieldsLoop : List Json → Except JsFault ValidationResult
  | [] => Except.ok (ValidationResult.mk true none)
  | f :: tl =>
    match getProp f keyId with
    | Except.error e => Except.error e
    | Except.ok idv =>
      if ¬ optTruthy idv then Except.ok (ValidationResult.mk false (some errFieldProps))
      else
        match getProp f keyLabel with
        | Except.error e => Except.error e
        | Except.ok lv =>
          if ¬ optTruthy lv then Except.ok (ValidationResult.mk false (some errFieldProps))
          else
            match getProp f keyType with
            | Except.error e => Except.error e
            | Except.ok tv =>
              if ¬ optTruthy tv then
                Except.ok (ValidationResult.mk false (some errFieldProps))
              else validateFieldsLoop tl

/-- JavaScript `typeof v === lit-object` for decoded JSON values. -/
def typeofIsObject : Json → Bool
  | Json.null => true
  | Json.obj _ => true
  | Json.arr _ => true
  | _ => false

/-- `validateFormSchema` of `src/lib/form-validator.ts`: reject non-objects,
require a `fields` array, require truthy `id`, `label`, `type` on every
element.  Note the function never reads `formTitle`. -/
def validateFormSchema (schema : Json) : Except JsFault ValidationResult :=
  if ¬ jsTruthy schema || ¬ typeofIsObject schema then
    Except.ok (ValidationResult.mk false (some errNotObject))
  else
    -- !formSchema.fields || !Array.isArray(formSchema.fields): only a
    -- present array value (arrays are always truthy) passes.  The read
    -- cannot throw here: null was rejected by the truthiness guard.
    match getProp schema keyFields with
    | Except.error e => Except.error e
    | Except.ok (some (Json.arr fs)) => validateFieldsLoop fs
    | Except.ok _ => Except.ok (ValidationResult.mk false (some errMissingFields))

/-! ### The AI-output validation of `generateFormInternal`
(`src/app/layout.tsx`, lines 215-230) -/

/-- Return value of `generateFormInternal`: `ok schema` for
`(success: true, schema)`, `err msg` for `(success: false, error)`. -/
inductive GenResult where
  | ok (schema : Json)
  | err (msg : List Char)
deriving DecidableEq

/-- Error text for a schema without `formTitle` or a `fields` array. -/
def errAiSchema : List Char :=
  strL ("Invalid form schema generated: missing formTitle or fields")

/-- Error text for a bad field in the generated schema. -/
def errAiField : List Char := strL ("Invalid field structure in generated schema")

/-- The field loop of the AI path (`!field.id || !field.label ||
!field.type`), with the same nulls-throw behaviour as the import loop. -/
def aiFieldsLoop : List Json → Except JsFault (Option (List Char))
  | [] => Except.ok none
  | f :: tl =>
    match getProp f keyId with
    | Except.error e => Except.error e
    | Except.ok idv =>
      if ¬ optTruthy idv then Except.ok (some errAiField)
      else
        match getProp f keyLabel with
        | Except.error e => Except.error e
        | Except.ok lv =>
          if ¬ optTruthy lv then Except.ok (some errAiField)
          else
            match getProp f keyType with
            | Except.error e => Except.error e
            | Except.ok tv =>
              if ¬ optTruthy tv then Except.ok (some errAiField)
              else aiFieldsLoop tl

/-- The structural checks the AI path applies before promoting a schema
(`!formSchema.formTitle || !formSchema.fields ||
!Array.isArray(formSchema.fields)`, then the field loop). -/
def validateAiSchemaCore (formSchema : Json) : Except JsFault GenResult :=
  match getProp formSchema keyFormTitle with
  | Except.error e => Except.error e
  | Except.ok title =>
    if ¬ optTruthy title then Except.ok (GenResult.err errAiSchema)
    else
      match getProp formSchema keyFields with
      | Except.error e => Except.error e
      | Except.ok (some (Json.arr fs)) =>
        match aiFieldsLoop fs with
        | Except.error e => Except.error e
        | Except.ok (some msg) => Except.ok (GenResult.err msg)
        | Except.ok none => Except.ok (GenResult.ok formSchema)
      | Except.ok _ => Except.ok (GenResult.err errAiSchema)

/-- The AI-path validation as the caller sees it: a thrown fault is caught
by the outer handler of `generateFormInternal` (line 234) and turned into
a failure value carrying the fault message. -/
def validateAiSchema (v : Json) : GenResult :=
  match validateAiSchemaCore v with
  | Except.ok r => r
  | Except.error f => GenResult.err (faultMessage f)

/-- Whether the AI path promotes the value to a displayed schema. -/
def aiAcceptsB (v : Json) : Bool :=
  match validateAiSchema v with
  | GenResult.ok _ => true
  | GenResult.err _ => false

/-- Whether the import validator returns `isValid: true`. -/
def importAcceptsB (v : Json) : Bool :=
  match validateFormSchema v with
  | Except.ok r => r.isValid
  | Except.error _ => false

/-- Whether the value is an object with a truthy `formTitle` property. -/
def titleTruthyB (v : Json) : Bool :=
  match v with
  | Json.obj ms => optTruthy (lookupMem ms keyFormTitle)
  | _ => false

instance {ε α : Type} [DecidableEq ε] [DecidableEq α] : DecidableEq (Except ε α) :=
  fun a b =>
    match a, b with
    | Except.ok x, Except.ok y =>
      if h : x = y then isTrue (by rw [h]) else isFalse (by simp [h])
    | Except.ok _, Except.error _ => isFalse (by simp)
    | Except.error _, Except.ok _ => isFalse (by simp)
    | Except.error x, Except.error y =>
      if h : x = y then isTrue (by rw [h]) else isFalse (by simp [h])

/-! ### The export serializer

Model of `JSON.stringify(formSchema, null, 2)` as `handleExport` calls it
(`src/app/page.tsx`, line 61): two-space pretty printing, members and
elements one per line, `": "` after keys. -/

/-- Lowercase hexadecimal digit character. -/
def hexDigitCh (n : Nat) : Char :=
  if n < 10 then Char.ofNat (48 + n) else Char.ofNat (87 + n)

/-- JSON escape of one character, exactly as `QuoteJSONString` emits it:
quote and backslash escaped, the five short escapes, `\u00xx` for the
remaining control characters, everything else verbatim. -/
def escChar (c : Char) : List Char :=
  if c = dq then [bsl, dq]
  else if c = bsl then [bsl, bsl]
  else if c = Char.ofNat 8 then [bsl, 'b']
  else if c = Char.ofNat 9 then [bsl, 't']
  else if c = Char.ofNat 10 then [bsl, 'n']
  else if c = Char.ofNat 12 then [bsl, 'f']
  else if c = Char.ofNat 13 then [bsl, 'r']
  else if c.toNat < 32 then
    [bsl, 'u', '0', '0', hexDigitCh (c.toNat / 16), hexDigitCh (c.toNat % 16)]
  else [c]

/-- Escape a whole string body. -/
def escapeStr : List Char → List Char
  | [] => []
  | c :: cs => escChar c ++ escapeStr cs

/-- Line-feed character. -/
def nlCh : Char := Char.ofNat 10

mutual

/-- Serialize a value at the given indentation, as
`JSON.stringify(v, null, 2)` lays it out: children are indented two
spaces beyond `ind`, one per line. -/
def printVal : List Char → Json → List Char
  | _, Json.null => ['n', 'u', 'l', 'l']
  | _, Json.bool true => ['t', 'r', 'u', 'e']
  | _, Json.bool false => ['f', 'a', 'l', 's', 'e']
  | _, Json.num lex => lex
  | _, Json.str s => dq :: (escapeStr s ++ [dq])
  | _, Json.arr [] => ['[', ']']
  | ind, Json.arr (e :: es) =>
    '[' :: nlCh :: ((ind ++ [' ', ' ']) ++
      (printElems (ind ++ [' ', ' ']) (e :: es) ++ (nlCh :: (ind ++ [']']))))
  | _, Json.obj [] => [lbrace, rbrace]
  | ind, Json.obj (m :: ms) =>
    lbrace :: nlCh :: ((ind ++ [' ', ' ']) ++
      (printMembers (ind ++ [' ', ' ']) (m :: ms) ++ (nlCh :: (ind ++ [rbrace]))))

/-- Serialize a nonempty element list at indentation `ind2` (the indent of
the first element is emitted by the caller; each subsequent element sits
on its own indented line). -/
def printElems : List Char → List Json → List Char
  | _, [] => []
  | ind2, [e] => printVal ind2 e
  | ind2, e :: es =>
    printVal ind2 e ++ (',' :: nlCh :: (ind2 ++ printElems ind2 es))

/-- Serialize a nonempty member list at indentation `ind2` (first indent
emitted by the caller). -/
def printMembers : List Char → List (List Char × Json) → List Char
  | _, [] => []
  | ind2, [(k, v)] =>
    dq :: (escapeStr k ++ (dq :: ':' :: ' ' :: printVal ind2 v))
  | ind2, (k, v) :: ms =>
    dq :: (escapeStr k ++ (dq :: ':' :: ' ' :: printVal ind2 v))
      ++ (',' :: nlCh :: (ind2 ++ printMembers ind2 ms))

end

/-- Top-level serialization: `JSON.stringify(v, null, 2)`. -/
def stringify2 (v : Json) : List Char := printVal [] v

/-- A remainder that cannot extend a number lexeme: empty, or headed by
something that is no digit, dot, or exponent marker.  Every separator the
serializer emits after a value (comma, line feed, closing brackets)
qualifies. -/
def numStopper : List Char → Bool
  | [] => true
  | c :: _ => !(isDigitCh c || c = '.' || c = 'e' || c = 'E')

/-- Every character is JSON whitespace. -/
def isWsAll (l : List Char) : Bool := l.all isJsonWs

/-- Key membership in a member list. -/
def keyMem (k : List Char) : List (List Char × Json) → Bool
  | [] => false
  | (k1, _) :: tl => if k1 = k then true else keyMem k tl

mutual

/-- Well-formedness of a modelled value as the image of a runtime
JavaScript value: number lexemes lex back to themselves under the strict
JSON number grammar, and object keys are unique (JavaScript objects cannot
carry duplicates). -/
def wfJson : Json → Bool
  | Json.null => true
  | Json.bool _ => true
  | Json.num lex => parseNumber lex == some (lex, [])
  | Json.str _ => true
  | Json.arr es => wfList es
  | Json.obj ms => wfMembers ms

/-- Well-formedness of every element. -/
def wfList : List Json → Bool
  | [] => true
  | e :: es => wfJson e && wfList es

/-- Well-formedness of every member, with key uniqueness. -/
def wfMembers : List (List Char × Json) → Bool
  | [] => true
  | (k, v) :: ms => !keyMem k ms && wfJson v && wfMembers ms

end

/-! ### Auxiliary predicates used by the claim statements -/

/-- Substring containment (`pat` occurs contiguously in the text). -/
def containsSub (pat : List Char) : List Char → Bool
  | [] => pat.isPrefixOf []
  | c :: cs => pat.isPrefixOf (c :: cs) || containsSub pat cs

/-- The `formTitle` property of the value is missing (including every
non-object value, which has no such own property) or the empty string. -/
def titleAbsentOrEmptyB (v : Json) : Bool :=
  match v with
  | Json.obj ms =>
    match lookupMem ms keyFormTitle with
    | none => true
    | some (Json.str []) => true
    | some _ => false
  | _ => true

/-- A field element that satisfies the per-field contract: an object with
truthy `id`, `label` and `type`. -/
def fieldOkB (f : Json) : Bool :=
  match f with
  | Json.obj fm =>
    optTruthy (lookupMem fm keyId) && optTruthy (lookupMem fm keyLabel) &&
      optTruthy (lookupMem fm keyType)
  | _ => false

/-- No brace characters anywhere in the text. -/
def braceFree (s : List Char) : Bool :=
  s.all (fun c => ¬ c = lbrace && ¬ c = rbrace)

/-- Brace-depth change contributed by the text. -/
def braceDelta (s : List Char) : Int :=
  s.foldl (fun d c => if c = lbrace then d + 1 else if c = rbrace then d - 1 else d) 0

/-- Starting from depth `d`, the running brace depth stays at least one
after every character of the text (no candidate span closes inside it). -/
def scanPos (d : Int) : List Char → Bool
  | [] => true
  | c :: cs =>
    let d2 := if c = lbrace then d + 1 else if c = rbrace then d - 1 else d
    decide (1 ≤ d2) && scanPos d2 cs

/-! ### Concrete inputs used by the claim theorems -/

/-- The text of a small JSON object `lbrace "a":1 rbrace`. -/
def exObjA : List Char := lbrace :: (strL ("\"a\":1") ++ [rbrace])

/-- The decoded value of `exObjA`. -/
def valObjA : Json := Json.obj [(['a'], Json.num ['1'])]

/-- The longer object of the specification example, with a title and an
empty field array. -/
def exObjB : List Char :=
  lbrace :: (strL ("\"formTitle\":\"X\",\"fields\":[]") ++ [rbrace])

/-- The decoded value of `exObjB`. -/
def valObjB : Json :=
  Json.obj [(keyFormTitle, Json.str ['X']), (keyFields, Json.arr [])]

/-- The specification example for two-object inputs: the two objects
surrounded and separated by brace-free prose. -/
def exC4 : List Char :=
  strL ("noise ") ++ exObjA ++ strL (" more ") ++ exObjB ++ strL (" end")

/-- A two-object input whose separating prose carries a stray closing
brace (the prose between the objects survives the cleaning cut). -/
def exC4bad : List Char :=
  strL ("noise ") ++
    (exObjA ++ (strL (" mo") ++ (rbrace :: (strL ("re ") ++ (exObjB ++ strL (" end"))))))

/-- An object whose only string value contains a closing brace. -/
def exObjBrace : List Char :=
  [lbrace, dq, 'b', dq, ':', dq, rbrace, dq, rbrace]

/-- The claim example input for the truncation hazard: `exObjA`, a space,
then `exObjBrace`. -/
def exC10 : List Char := exObjA ++ (' ' :: exObjBrace)

/-- The candidate the depth scan truncates out of `exObjBrace` (cut at the
brace inside the string literal). -/
def exTrunc : List Char := [lbrace, dq, 'b', dq, ':', dq, rbrace]

/-- A valid JSON document that is not an object literal: an array holding
one object. -/
def exC3 : List Char := '[' :: (exObjA ++ [']'])

/-- Unbalanced input with no JSON anywhere. -/
def exUnbalanced : List Char := [lbrace, lbrace, lbrace]

/-- Input whose cleaning changes the front and whose stages all fail:
prose, an undecodable brace span, prose, a stray closing brace. -/
def exC5 : List Char :=
  strL ("xx ") ++ ([lbrace, 'a', rbrace] ++ (strL (" yy ") ++ [rbrace]))

/-- The cleaned candidate of `exC5` (first brace to last brace). -/
def exC5cand : List Char := [lbrace, 'a', rbrace] ++ (strL (" yy ") ++ [rbrace])

/-- The tie input for the selection rule: two distinct three-character
candidates. -/
def exC8 : List Char := [lbrace, 'a', rbrace, ' ', lbrace, 'b', rbrace]

/-- An object value with a `fields` array but no `formTitle`. -/
def exNoTitle : Json := Json.obj [(keyFields, Json.arr [])]

/-- An object value whose `fields` array holds a `null` element. -/
def exNullField : Json :=
  Json.obj [(keyFormTitle, Json.str ['T']), (keyFields, Json.arr [Json.null])]

/-- An object value with one field element missing `label` and `type`. -/
def exBadField : Json :=
  Json.obj [(keyFormTitle, Json.str ['T']),
            (keyFields, Json.arr [Json.obj [(keyId, Json.str ['a'])]])]

/-- A well-formed schema value matching the specification's accepted
example. -/
def exGoodSchema : Json :=
  Json.obj [(keyFormTitle, Json.str ['T']),
            (keyFields, Json.arr [Json.obj
              [(keyId, Json.str ['a']),
               (keyLabel, Json.str ['A']),
               (keyType, Json.str (strL ("text"))),
               (strL ("required"), Json.bool true)]])]

/-! ## Lemmas -/

/-- Every failure message starts with the fixed template prefix, so it is
never empty. -/
theorem failedMessage_ne (i : FailInfo) : failedMessage i ≠ [] := by
  have hpre : failMsgPre ≠ [] := by decide
  intro h
  simp only [failedMessage] at h
  exact hpre (List.append_eq_nil.mp (List.append_eq_nil.mp h).1).1

/-- The two field loops agree on acceptance: the AI loop reports no error
exactly when the import loop reports `isValid`.  Both walk the same
elements, read the same properties in the same order, and propagate the
same thrown faults. -/
theorem loopsAgree (fs : List Json) :
    (match aiFieldsLoop fs with | Except.ok none => true | _ => false) =
    (match validateFieldsLoop fs with | Except.ok r => r.isValid | _ => false) := by
  induction fs with
  | nil => rfl
  | cons f tl ih =>
    simp only [aiFieldsLoop, validateFieldsLoop]
    cases hid : getProp f keyId with
    | error e => simp
    | ok idv =>
      by_cases h1 : optTruthy idv
      · simp only [h1, not_true, if_neg, if_false]
        cases hlb : getProp f keyLabel with
        | error e => simp
        | ok lv =>
          by_cases h2 : optTruthy lv
          · simp only [h2, not_true, if_neg, if_false]
            cases hty : getProp f keyType with
            | error e => simp
            | ok tv =>
              by_cases h3 : optTruthy tv
              · simpa only [h3, not_true, if_neg, if_false] using ih
              · simp [h3]
          · simp [h2]
      · simp [h1]

/-- On a field list with no `null` element, both loops return their
invalid-field-structure values exactly when some element fails the
per-field contract, and their success values otherwise. -/
theorem fieldsLoopSplit (fs : List Json)
    (hnn : (fs.all fun f => f != Json.null) = true) :
    (fs.all fieldOkB = true →
      validateFieldsLoop fs = Except.ok (ValidationResult.mk true none) ∧
      aiFieldsLoop fs = Except.ok none) ∧
    (fs.all fieldOkB = false →
      validateFieldsLoop fs = Except.ok (ValidationResult.mk false (some errFieldProps)) ∧
      aiFieldsLoop fs = Except.ok (some errAiField)) := by
  induction fs with
  | nil => exact ⟨fun _ => ⟨rfl, rfl⟩, fun h => by simp at h⟩
  | cons f tl ih =>
    simp only [List.all_cons, Bool.and_eq_true, bne_iff_ne, ne_eq] at hnn
    obtain ⟨hf, htl⟩ := hnn
    have ih2 := ih (by simpa using htl)
    constructor
    · intro hall
      simp only [List.all_cons, Bool.and_eq_true] at hall
      obtain ⟨hok, htlok⟩ := hall
      cases f with
      | null => exact absurd rfl hf
      | obj fm =>
        simp only [fieldOkB, Bool.and_eq_true] at hok
        obtain ⟨⟨h1, h2⟩, h3⟩ := hok
        simp only [validateFieldsLoop, aiFieldsLoop, getProp, h1, h2, h3,
                   not_true, if_neg, if_false]
        exact ih2.1 htlok
      | bool b => simp [fieldOkB] at hok
      | num lex => simp [fieldOkB] at hok
      | str s => simp [fieldOkB] at hok
      | arr es => simp [fieldOkB] at hok
    · intro hbad
      simp only [List.all_cons, Bool.and_eq_false_iff] at hbad
      cases f with
      | null => exact absurd rfl hf
      | obj fm =>
        by_cases h1 : optTruthy (lookupMem fm keyId)
        · by_cases h2 : optTruthy (lookupMem fm keyLabel)
          · by_cases h3 : optTruthy (lookupMem fm keyType)
            · have hokf : fieldOkB (Json.obj fm) = true := by
                simp [fieldOkB, h1, h2, h3]
              have htlbad : tl.all fieldOkB = false := by
                cases hbad with
                | inl h => rw [hokf] at h; exact absurd h (by simp)
                | inr h => exact h
              simp only [validateFieldsLoop, aiFieldsLoop, getProp, h1, h2, h3,
                         not_true, if_neg, if_false]
              exact ih2.2 htlbad
            · simp [validateFieldsLoop, aiFieldsLoop, getProp, h1, h2, h3]
          · simp [validateFieldsLoop, aiFieldsLoop, getProp, h1, h2]
        · simp [validateFieldsLoop, aiFieldsLoop, getProp, h1]
      | bool b => simp [validateFieldsLoop, aiFieldsLoop, getProp, optTruthy]
      | num lex => simp [validateFieldsLoop, aiFieldsLoop, getProp, optTruthy]
      | str s => simp [validateFieldsLoop, aiFieldsLoop, getProp, optTruthy]
      | arr es => simp [validateFieldsLoop, aiFieldsLoop, getProp, optTruthy]

/-- Fallback C hands any failure back with the diagnostic record it was
given (the record built from the primary attempt). -/
theorem extractStageC_failed {t2 : List Char} {info i : FailInfo}
    (h : extractStageC t2 info = ExtractResult.failed i) : i = info := by
  simp only [extractStageC] at h
  split at h
  · split at h
    · exact absurd h (by simp)
    · simp only [ExtractResult.failed.injEq] at h
      exact h.symm
  · simp only [ExtractResult.failed.injEq] at h
    exact h.symm

/-- Fallback B propagates the diagnostic record unchanged. -/
theorem extractStageB_failed {t2 : List Char} {info i : FailInfo}
    (h : extractStageB t2 info = ExtractResult.failed i) : i = info := by
  simp only [extractStageB] at h
  split at h
  · split at h
    · exact absurd h (by simp)
    · exact extractStageC_failed h
  · exact extractStageC_failed h

/-- Fallback A propagates the diagnostic record unchanged. -/
theorem extractStageA_failed {t2 : List Char} {info i : FailInfo}
    (h : extractStageA t2 info = ExtractResult.failed i) : i = info := by
  simp only [extractStageA] at h
  split at h
  · split at h
    · exact absurd h (by simp)
    · exact extractStageB_failed h
  · exact extractStageB_failed h

/-- Specification of the reduction `(a, b) => a.length > b.length ? a : b`:
its result splits the list into a prefix, the selected element, and a
suffix of strictly shorter elements — the selected element is the LAST one
attaining the maximum length. -/
theorem foldlPick_spec (xs : List (List Char)) :
    ∀ x : List Char, ∃ pre post,
      x :: xs = pre ++ (xs.foldl (fun a b => if b.length < a.length then a else b) x) :: post ∧
      (∀ c ∈ x :: xs,
        c.length ≤ (xs.foldl (fun a b => if b.length < a.length then a else b) x).length) ∧
      (∀ c ∈ post,
        c.length < (xs.foldl (fun a b => if b.length < a.length then a else b) x).length) := by
  induction xs with
  | nil =>
    intro x
    exact ⟨[], [], rfl, by simp, by simp⟩
  | cons y ys ih =>
    intro x
    simp only [List.foldl_cons]
    by_cases hxy : y.length < x.length
    · rw [if_pos hxy]
      obtain ⟨pre, post, hsplit, hmax, hpost⟩ := ih x
      cases pre with
      | nil =>
        simp only [List.nil_append, List.cons.injEq] at hsplit
        obtain ⟨hx, hys⟩ := hsplit
        refine ⟨[], y :: post, ?_, ?_, ?_⟩
        · simp only [List.nil_append]
          rw [← hx, hys]
        · intro c hc
          rcases List.mem_cons.mp hc with rfl | hc2
          · exact hmax _ (by simp)
          · rcases List.mem_cons.mp hc2 with rfl | hc3
            · rw [← hx]; omega
            · exact hmax c (by simp [hc3])
        · intro c hc
          rcases List.mem_cons.mp hc with rfl | hc2
          · rw [← hx]; omega
          · exact hpost c hc2
      | cons p ps =>
        simp only [List.cons_append, List.cons.injEq] at hsplit
        obtain ⟨hp, hys⟩ := hsplit
        refine ⟨x :: y :: ps, post, ?_, ?_, ?_⟩
        · simp only [List.cons_append, List.cons.injEq, true_and]
          exact hys
        · intro c hc
          rcases List.mem_cons.mp hc with rfl | hc2
          · exact hmax _ (by simp)
          · rcases List.mem_cons.mp hc2 with rfl | hc3
            · have hx2 := hmax x (by simp)
              omega
            · exact hmax c (by simp [hc3])
        · exact hpost
    · rw [if_neg hxy]
      obtain ⟨pre, post, hsplit, hmax, hpost⟩ := ih y
      have hxle : x.length ≤ y.length := Nat.le_of_not_lt hxy
      cases pre with
      | nil =>
        simp only [List.nil_append, List.cons.injEq] at hsplit
        obtain ⟨hy, hys⟩ := hsplit
        refine ⟨[x], post, ?_, ?_, ?_⟩
        · simp only [List.cons_append, List.nil_append, List.cons.injEq, true_and]
          rw [← hy, hys]
          exact ⟨rfl, rfl⟩
        · intro c hc
          rcases List.mem_cons.mp hc with rfl | hc2
          · rw [← hy]; exact hxle
          · rcases List.mem_cons.mp hc2 with rfl | hc3
            · exact hmax _ (by simp)
            · exact hmax c (by simp [hc3])
        · exact hpost
      | cons p ps =>
        simp only [List.cons_append, List.cons.injEq] at hsplit
        obtain ⟨hp, hys⟩ := hsplit
        refine ⟨x :: y :: ps, post, ?_, ?_, ?_⟩
        · simp only [List.cons_append, List.cons.injEq, true_and]
          exact hys
        · intro c hc
          rcases List.mem_cons.mp hc with rfl | hc2
          · have hy2 := hmax y (by simp)
            omega
          · rcases List.mem_cons.mp hc2 with rfl | hc3
            · exact hmax _ (by simp)
            · exact hmax c (by simp [hc3])
        · exact hpost

/-- No JSON value starts with a backtick, so a backtick-headed candidate
never parses. -/
theorem parseVal_btick (f : Nat) (cs : List Char) : parseVal f (btick :: cs) = none := by
  cases f with
  | zero => rfl
  | succ f => rfl

/-- Text that `JSON.parse` accepts cannot begin with a code fence, so the
fence-stripping step leaves it unchanged. -/
theorem stripFences_of_parse (t : List Char) (v : Json) (h : jsonParseFull t = some v) :
    stripFences t = t := by
  have hb : ∀ cs, t ≠ btick :: cs := by
    intro cs hcs
    rw [hcs] at h
    simp [jsonParseFull, parseVal_btick] at h
  rw [stripFences]
  split_ifs with h1 h2
  · exfalso
    cases t with
    | nil => simp [fenceJson, fenceMark, List.isPrefixOf] at h1
    | cons c cs =>
      simp only [fenceJson, fenceMark, List.cons_append, List.isPrefixOf,
                 Bool.and_eq_true, beq_iff_eq] at h1
      exact hb cs (by rw [h1.1])
  · exfalso
    cases t with
    | nil => simp [fenceMark, List.isPrefixOf] at h2
    | cons c cs =>
      simp only [fenceMark, List.isPrefixOf, Bool.and_eq_true, beq_iff_eq] at h2
      exact hb cs (by rw [h2.1])
  · rfl

/-- Shift property of the brace-depth fold. -/
theorem braceDelta_shift (l : List Char) : ∀ a : Int,
    l.foldl (fun d c => if c = lbrace then d + 1 else if c = rbrace then d - 1 else d) a
      = a + braceDelta l := by
  induction l with
  | nil => intro a; simp [braceDelta]
  | cons c cs ih =>
    intro a
    simp only [braceDelta, List.foldl_cons] at ih ⊢
    rw [ih, ih (if c = lbrace then (0 : Int) + 1 else if c = rbrace then 0 - 1 else 0)]
    split_ifs <;> omega

/-- Head decomposition of the brace-depth fold. -/
theorem braceDelta_cons (c : Char) (cs : List Char) :
    braceDelta (c :: cs) =
      (if c = lbrace then 1 else if c = rbrace then -1 else 0) + braceDelta cs := by
  simp only [braceDelta, List.foldl_cons]
  rw [braceDelta_shift]
  split_ifs <;> norm_num [braceDelta]

/-- Outside any candidate, brace-free prose leaves the scan state
unchanged. -/
theorem scanGo_braceFree (p : List Char) (hp : braceFree p = true) :
    ∀ (acc : List (List Char)) (r : List Char),
      scanGo 0 none acc (p ++ r) = scanGo 0 none acc r := by
  induction p with
  | nil => intro acc r; rfl
  | cons c cs ih =>
    intro acc r
    simp only [braceFree, List.all_cons, Bool.and_eq_true] at hp
    obtain ⟨hc, htl⟩ := hp
    simp only [Bool.and_eq_true, decide_eq_true_eq] at hc
    obtain ⟨hcl, hcr⟩ := hc
    simp only [List.cons_append, scanGo, if_neg hcl, if_neg hcr, Option.map_none']
    exact ih htl acc r

/-- Inside a candidate (depth at least one throughout), the scan buffers
every character and tracks the depth change. -/
theorem scanGo_inside (mid : List Char) :
    ∀ (d : Int) (b : List Char) (acc : List (List Char)) (r : List Char),
      1 ≤ d → scanPos d mid = true →
      scanGo d (some b) acc (mid ++ r)
        = scanGo (d + braceDelta mid) (some (b ++ mid)) acc r := by
  induction mid with
  | nil =>
    intro d b acc r hd hs
    simp [braceDelta]
  | cons c cs ih =>
    intro d b acc r hd hs
    simp only [scanPos, Bool.and_eq_true, decide_eq_true_eq] at hs
    obtain ⟨h1, h2⟩ := hs
    by_cases hcl : c = lbrace
    · subst hcl
      rw [if_pos rfl] at h1 h2
      rw [braceDelta_cons, if_pos rfl]
      simp only [List.cons_append, scanGo, eq_self_iff_true, if_true,
                 if_neg (show ¬ d = 0 by omega), Option.map_some', List.append_eq]
      rw [ih (d + 1) (b ++ [lbrace]) acc r (by omega) h2]
      rw [show b ++ [lbrace] ++ cs = b ++ lbrace :: cs by simp]
      congr 1
      omega
    · by_cases hcr : c = rbrace
      · subst hcr
        rw [if_neg (by decide : ¬ ((rbrace : Char) = lbrace)), if_pos rfl] at h1 h2
        rw [braceDelta_cons, if_neg (by decide : ¬ ((rbrace : Char) = lbrace)), if_pos rfl]
        simp only [List.cons_append, scanGo, eq_self_iff_true, if_true,
                   if_neg (by decide : ¬ ((rbrace : Char) = lbrace)),
                   if_neg (show ¬ d - 1 = 0 by omega), Option.map_some', List.append_eq]
        rw [ih (d - 1) (b ++ [rbrace]) acc r (by omega) h2]
        rw [show b ++ [rbrace] ++ cs = b ++ rbrace :: cs by simp]
        congr 1
        omega
      · rw [if_neg hcl, if_neg hcr] at h1 h2
        rw [braceDelta_cons, if_neg hcl, if_neg hcr]
        simp only [List.cons_append, scanGo, if_neg hcl, if_neg hcr,
                   Option.map_some', List.append_eq]
        rw [ih d (b ++ [c]) acc r (by omega) h2]
        rw [show b ++ [c] ++ cs = b ++ c :: cs by simp]
        congr 1
        omega

/-- A complete properly nested candidate is pushed whole onto the
accumulator. -/
theorem scanGo_object (mid : List Char) (hm : scanPos 1 mid = true)
    (hd : braceDelta mid = 0) (acc : List (List Char)) (r : List Char) :
    scanGo 0 none acc ((lbrace :: (mid ++ [rbrace])) ++ r)
      = scanGo 0 none (acc ++ [lbrace :: (mid ++ [rbrace])]) r := by
  simp only [List.cons_append, scanGo, eq_self_iff_true, if_true, List.append_eq]
  rw [List.append_assoc]
  rw [show (0 : Int) + 1 = 1 by norm_num]
  rw [scanGo_inside mid 1 [lbrace] acc ([rbrace] ++ r) (by omega) hm, hd]
  rw [show (1 : Int) + 0 = 1 by norm_num]
  simp only [List.singleton_append, scanGo,
             if_neg (by decide : ¬ ((rbrace : Char) = lbrace)), eq_self_iff_true, if_true,
             if_pos (show (1 : Int) - 1 = 0 by norm_num)]
  rw [show (1 : Int) - 1 = 0 by norm_num]
  simp

/-- Unpack brace-freeness into its two membership facts. -/
theorem braceFree_spec {a : List Char} (h : braceFree a = true) :
    ∀ x ∈ a, ¬ x = lbrace ∧ ¬ x = rbrace := by
  intro x hx
  simp only [braceFree, List.all_eq_true] at h
  have := h x hx
  simpa using this

/-- Index search distributes over an occurrence-free prefix. -/
theorem firstIdx_append {c : Char} {a : List Char} (h : ∀ x ∈ a, ¬ x = c) :
    ∀ l, firstIdx c (a ++ l) = (firstIdx c l).map (· + a.length) := by
  induction a with
  | nil =>
    intro l
    simp only [List.nil_append]
    cases firstIdx c l <;> simp
  | cons x xs ih =>
    intro l
    have hx : ¬ x = c := h x (by simp)
    rw [List.cons_append]
    rw [show firstIdx c (x :: (xs ++ l)) = (firstIdx c (xs ++ l)).map (· + 1) from by
        simp [firstIdx, if_neg hx]]
    rw [ih (fun y hy => h y (by simp [hy])) l]
    cases firstIdx c l <;> simp [Nat.add_assoc]

/-- The first index of a cons headed by the target. -/
theorem firstIdx_cons_self (c : Char) (l : List Char) :
    firstIdx c (c :: l) = some 0 := by
  simp [firstIdx]

/-- The brace span of brace-free prose around a block that opens with the
first brace and closes with the last: exactly that block. -/
theorem braceSpan_concat (a m c : List Char)
    (ha : braceFree a = true) (hc : braceFree c = true)
    (hhead : ∃ t, m = lbrace :: t) (hlast : ∃ t, m = t ++ [rbrace]) :
    braceSpan (a ++ (m ++ c)) = some m := by
  obtain ⟨t1, ht1⟩ := hhead
  obtain ⟨t2, ht2⟩ := hlast
  have hm2 : 2 ≤ m.length := by
    rcases Nat.lt_or_ge m.length 2 with hlt | hge
    · exfalso
      interval_cases hml : m.length
      · rw [List.length_eq_zero] at hml
        rw [hml] at ht1
        exact absurd ht1 (by simp)
      · rw [List.length_eq_one] at hml
        obtain ⟨x, hx⟩ := hml
        rw [hx] at ht1 ht2
        have h1 : x = lbrace := by
          simpa using congrArg (fun l => l.head?) ht1
        have ht2' : t2 = [] := by
          have := congrArg List.length ht2
          simp at this
          simpa using this.symm
        rw [ht2'] at ht2
        have h2 : x = rbrace := by simpa using ht2
        rw [h1] at h2
        exact absurd h2 (by decide)
    · exact hge
  have hfb : firstIdx lbrace (a ++ (m ++ c)) = some a.length := by
    rw [firstIdx_append (fun x hx => (braceFree_spec ha x hx).1)]
    rw [ht1, List.cons_append, firstIdx_cons_self]
    simp
  have hlb : lastIdx rbrace (a ++ (m ++ c)) =
      some (a.length + m.length - 1) := by
    rw [lastIdx]
    have hrev : (a ++ (m ++ c)).reverse = c.reverse ++ (m.reverse ++ a.reverse) := by
      simp
    rw [hrev]
    have hmr : m.reverse = rbrace :: t2.reverse := by
      rw [ht2]
      simp
    rw [firstIdx_append (fun x hx => (braceFree_spec hc x (by simpa using hx)).2)]
    rw [hmr, List.cons_append, firstIdx_cons_self]
    simp only [Option.map_some', Option.some.injEq, List.length_append,
               List.length_reverse]
    omega
  simp only [braceSpan, hfb, hlb]
  rw [if_pos (by omega)]
  simp only [substringL, Option.some.injEq]
  rw [show a.length + m.length - 1 + 1 - a.length = m.length by omega]
  rw [List.drop_left, List.take_left]

/-- A text of two complete properly nested candidates separated by
brace-free prose scans to exactly those two candidates. -/
theorem scanObjs_two (mid1 p2 mid2 : List Char)
    (hm1 : scanPos 1 mid1 = true) (hd1 : braceDelta mid1 = 0)
    (hm2 : scanPos 1 mid2 = true) (hd2 : braceDelta mid2 = 0)
    (hp2 : braceFree p2 = true) :
    scanObjs ((lbrace :: (mid1 ++ [rbrace])) ++ (p2 ++ (lbrace :: (mid2 ++ [rbrace]))))
      = [lbrace :: (mid1 ++ [rbrace]), lbrace :: (mid2 ++ [rbrace])] := by
  rw [scanObjs, scanGo_object mid1 hm1 hd1 [] (p2 ++ (lbrace :: (mid2 ++ [rbrace]))),
      scanGo_braceFree p2 hp2]
  have hnil : scanGo 0 none ([] ++ [lbrace :: (mid1 ++ [rbrace])])
      (lbrace :: (mid2 ++ [rbrace]))
      = scanGo 0 none ([] ++ [lbrace :: (mid1 ++ [rbrace])])
        ((lbrace :: (mid2 ++ [rbrace])) ++ []) := by
    rw [List.append_nil]
  rw [hnil, scanGo_object mid2 hm2 hd2 _ []]
  rfl

/-! ### Round-trip support: whitespace, escapes, numbers -/

/-- Skipping starts after any all-whitespace prefix. -/
theorem skipWs_ws_append {w : List Char} (h : isWsAll w = true) (s : List Char) :
    skipWs (w ++ s) = skipWs s := by
  induction w with
  | nil => rfl
  | cons c cs ih =>
    simp only [isWsAll, List.all_cons, Bool.and_eq_true] at h
    simp only [List.cons_append, skipWs, List.dropWhile_cons, h.1, if_true]
    exact ih (by simp [isWsAll, h.2])

/-- Skipping stops at a non-whitespace head. -/
theorem skipWs_cons_not {c : Char} (h : isJsonWs c = false) (s : List Char) :
    skipWs (c :: s) = c :: s := by
  simp [skipWs, List.dropWhile_cons, h]

/-- The value parser ignores an all-whitespace prefix. -/
theorem parseVal_ws {w : List Char} (h : isWsAll w = true) (f : Nat) (s : List Char) :
    parseVal f (w ++ s) = parseVal f s := by
  cases f with
  | zero => rfl
  | succ f => simp only [parseVal, skipWs_ws_append h]

/-- The element parser ignores an all-whitespace prefix. -/
theorem parseElems_ws {w : List Char} (h : isWsAll w = true) (f : Nat) (s : List Char) :
    parseElems f (w ++ s) = parseElems f s := by
  cases f with
  | zero => rfl
  | succ f => simp only [parseElems, parseVal_ws h]

/-- The member parser ignores an all-whitespace prefix. -/
theorem parseMembers_ws {w : List Char} (h : isWsAll w = true) (f : Nat) (s : List Char) :
    parseMembers f (w ++ s) = parseMembers f s := by
  cases f with
  | zero => rfl
  | succ f => simp only [parseMembers, skipWs_ws_append h]

/-- Hexadecimal digits round-trip through the lowercase printer. -/
theorem hexVal_hexDigitCh (x : Nat) (h : x < 16) : hexVal (hexDigitCh x) = some x := by
  interval_cases x <;> decide

/-- Characters below the surrogate range survive `toNat` then `ofNat`. -/
theorem char_ofNat_toNat {c : Char} (h : c.toNat < 55296) : Char.ofNat c.toNat = c := by
  have hv : Nat.isValidChar c.toNat := Or.inl (by omega)
  rw [Char.ofNat, dif_pos hv]
  rfl

/-- A short escape sequence parses back to the character it encodes. -/
theorem parseStringBody_bslEsc (e ch : Char) (r : List Char)
    (he : ¬ e = 'u') (hcode : escCode e = some ch) :
    parseStringBody (bsl :: (e :: r)) =
      match parseStringBody r with
      | some (body, rest) => some (ch :: body, rest)
      | none => none := by
  rw [parseStringBody.eq_def]
  simp only [if_neg (by decide : ¬ ((bsl : Char) = dq)), eq_self_iff_true, if_true,
             if_neg he, hcode]

/-- An unescaped character parses back verbatim. -/
theorem parseStringBody_verbatim (c : Char) (r : List Char)
    (h1 : ¬ c = dq) (h2 : ¬ c = bsl) (h3 : ¬ c.toNat < 32) :
    parseStringBody (c :: r) =
      match parseStringBody r with
      | some (body, rest) => some (c :: body, rest)
      | none => none := by
  rw [parseStringBody.eq_def]
  simp only [if_neg h1, if_neg h2, if_neg h3]

/-- Parsing one escaped character prepends exactly that character. -/
theorem parseStringBody_esc (c : Char) (r : List Char) :
    parseStringBody (escChar c ++ r) =
      match parseStringBody r with
      | some (body, rest) => some (c :: body, rest)
      | none => none := by
  rw [escChar]
  split_ifs with h1 h2 h3 h4 h5 h6 h7 h8
  · rw [show ([bsl, dq] : List Char) ++ r = bsl :: (dq :: r) from rfl,
        parseStringBody_bslEsc dq dq r (by decide) (by decide), h1]
  · rw [show ([bsl, bsl] : List Char) ++ r = bsl :: (bsl :: r) from rfl,
        parseStringBody_bslEsc bsl bsl r (by decide) (by decide), h2]
  · rw [show ([bsl, 'b'] : List Char) ++ r = bsl :: ('b' :: r) from rfl,
        parseStringBody_bslEsc 'b' (Char.ofNat 8) r (by decide) (by decide), h3]
  · rw [show ([bsl, 't'] : List Char) ++ r = bsl :: ('t' :: r) from rfl,
        parseStringBody_bslEsc 't' (Char.ofNat 9) r (by decide) (by decide), h4]
  · rw [show ([bsl, 'n'] : List Char) ++ r = bsl :: ('n' :: r) from rfl,
        parseStringBody_bslEsc 'n' (Char.ofNat 10) r (by decide) (by decide), h5]
  · rw [show ([bsl, 'f'] : List Char) ++ r = bsl :: ('f' :: r) from rfl,
        parseStringBody_bslEsc 'f' (Char.ofNat 12) r (by decide) (by decide), h6]
  · rw [show ([bsl, 'r'] : List Char) ++ r = bsl :: ('r' :: r) from rfl,
        parseStringBody_bslEsc 'r' (Char.ofNat 13) r (by decide) (by decide), h7]
  · have hlt : c.toNat < 55296 := by omega
    have hq : c.toNat / 16 < 16 := by omega
    have hr2 : c.toNat % 16 < 16 := by omega
    rw [show ([bsl, 'u', '0', '0', hexDigitCh (c.toNat / 16), hexDigitCh (c.toNat % 16)]
          : List Char) ++ r
        = bsl :: ('u' :: '0' :: '0' :: hexDigitCh (c.toNat / 16)
            :: hexDigitCh (c.toNat % 16) :: r) from rfl]
    rw [parseStringBody.eq_def]
    simp only [if_neg (by decide : ¬ ((bsl : Char) = dq)), eq_self_iff_true, if_true,
               hexVal_hexDigitCh _ hq, hexVal_hexDigitCh _ hr2]
    rw [show hexVal '0' = some 0 from by decide]
    dsimp only
    rw [show ((0 * 16 + 0) * 16 + c.toNat / 16) * 16 + c.toNat % 16 = c.toNat by omega]
    rw [if_neg (by simp only [Bool.and_eq_true, decide_eq_true_eq, not_and] ; omega)]
    rw [char_ofNat_toNat hlt]
  · rw [show ([c] : List Char) ++ r = c :: r from rfl,
        parseStringBody_verbatim c r h1 h2 h8]

/-- Parsing an escaped body stops exactly at the closing quote. -/
theorem parseStringBody_escape (s : List Char) :
    ∀ r, parseStringBody (escapeStr s ++ (dq :: r)) = some (s, r) := by
  induction s with
  | nil =>
    intro r
    rw [show escapeStr [] ++ (dq :: r) = dq :: r from rfl, parseStringBody.eq_def]
    simp
  | cons c cs ih =>
    intro r
    rw [escapeStr, List.append_assoc, parseStringBody_esc, ih r]

/-- Unpack a stopper into facts about the head character. -/
theorem numStopper_head {u : List Char} (h : numStopper u = true) :
    match u with
    | [] => True
    | c :: _ => isDigitCh c = false ∧ ¬ c = '.' ∧ ¬ c = 'e' ∧ ¬ c = 'E' := by
  cases u with
  | nil => trivial
  | cons c cs =>
    simp only [numStopper, Bool.not_eq_true', Bool.or_eq_false_iff,
               decide_eq_false_iff_not] at h
    exact ⟨h.1.1.1, h.1.1.2, h.1.2, h.2⟩

/-- `takeWhile` / `dropWhile` of a satisfied run followed by a stopper. -/
theorem takeWhile_all_append {p : Char → Bool} {ds : List Char}
    (hd : ∀ c ∈ ds, p c = true) {r : List Char}
    (hr : match r with | [] => True | c :: _ => p c = false) :
    (ds ++ r).takeWhile p = ds ∧ (ds ++ r).dropWhile p = r := by
  induction ds with
  | nil =>
    cases r with
    | nil => exact ⟨rfl, rfl⟩
    | cons c cs =>
      simp only [List.nil_append, List.takeWhile_cons, List.dropWhile_cons]
      simp only at hr
      simp [hr]
  | cons d ds2 ih =>
    have hpd : p d = true := hd d (by simp)
    obtain ⟨h1, h2⟩ := ih (fun c hc => hd c (by simp [hc]))
    simp [List.takeWhile_cons, List.dropWhile_cons, hpd, h1, h2]

/-- The span of a satisfied run followed by a stopper is exact. -/
theorem span_exact {p : Char → Bool} {ds r : List Char}
    (hd : ∀ c ∈ ds, p c = true)
    (hr : match r with | [] => True | c :: _ => p c = false) :
    List.span p (ds ++ r) = (ds, r) := by
  rw [List.span_eq_take_drop, (takeWhile_all_append hd hr).1,
      (takeWhile_all_append hd hr).2]

/-- The head of a `dropWhile` result refutes the predicate. -/
theorem dropWhile_head_false {p : Char → Bool} (l : List Char) :
    ∀ c cs, l.dropWhile p = c :: cs → p c = false := by
  induction l with
  | nil => intro c cs h; simp at h
  | cons a as ih =>
    intro c cs h
    rw [List.dropWhile_cons] at h
    by_cases hp : p a
    · rw [if_pos hp] at h
      exact ih c cs h
    · rw [if_neg hp] at h
      cases h
      simpa using hp

/-- Inversion of a span into its three characterizing facts. -/
theorem span_parts {p : Char → Bool} {l t d : List Char}
    (h : List.span p l = (t, d)) :
    l = t ++ d ∧ (∀ c ∈ t, p c = true) ∧
      ∀ x xs, d = x :: xs → p x = false := by
  rw [List.span_eq_take_drop, Prod.mk.injEq] at h
  obtain ⟨ht, hd⟩ := h
  subst ht
  subst hd
  refine ⟨(List.takeWhile_append_dropWhile p l).symm,
          fun c hc => List.mem_takeWhile_imp hc, ?_⟩
  intro x xs hx
  exact dropWhile_head_false l x xs hx

/-- The integer part consumes the same digits when more text follows,
provided the remainder or the appended text cannot extend a digit run. -/
theorem numIntPart_append {s ip r : List Char} (h : numIntPart s = some (ip, r))
    (u : List Char) (hu : r = [] → numStopper u = true) :
    numIntPart (s ++ u) = some (ip, r ++ u) := by
  cases s with
  | nil => simp [numIntPart] at h
  | cons c cs =>
    simp only [numIntPart] at h
    by_cases h0 : c = '0'
    · rw [if_pos h0] at h
      obtain ⟨rfl, rfl⟩ : [c] = ip ∧ cs = r := by
        simpa [Prod.mk.injEq] using h
      simp only [List.cons_append, numIntPart, if_pos h0]
    · rw [if_neg h0] at h
      by_cases hdig : isDigitCh c = true
      · rw [if_pos hdig] at h
        rcases hspan : cs.span isDigitCh with ⟨digs, rest⟩
        rw [hspan] at h
        obtain ⟨rfl, rfl⟩ : c :: digs = ip ∧ rest = r := by
          simpa [Prod.mk.injEq] using h
        obtain ⟨hcs, hall, hhead⟩ := span_parts hspan
        simp only [List.cons_append, numIntPart, if_neg h0, if_pos hdig]
        rw [hcs, List.append_assoc]
        rw [span_exact hall ?hstop]
        case hstop =>
          cases rest with
          | nil =>
            cases u with
            | nil => trivial
            | cons x xs =>
              have := numStopper_head (hu rfl)
              simpa using this.1
          | cons x xs =>
            exact hhead x xs rfl
      · simp only [if_neg hdig] at h
        exact absurd h (by simp)

/-- The fraction part behaves the same with more text appended. -/
theorem numFracPart_append {s fp r : List Char} (h : numFracPart s = some (fp, r))
    (u : List Char) (hu : r = [] → numStopper u = true) :
    numFracPart (s ++ u) = some (fp, r ++ u) := by
  cases s with
  | nil =>
    obtain ⟨rfl, rfl⟩ : ([] : List Char) = fp ∧ ([] : List Char) = r := by
      simpa [numFracPart, Prod.mk.injEq] using h
    cases u with
    | nil => rfl
    | cons x xs =>
      have hx := numStopper_head (hu rfl)
      simp only at hx
      simp [numFracPart, hx.2.1]
  | cons c cs =>
    simp only [numFracPart] at h
    by_cases hdot : c = '.'
    · rw [if_pos hdot] at h
      rcases hspan : cs.span isDigitCh with ⟨digs, rest⟩
      rw [hspan] at h
      by_cases hnil : digs = []
      · rw [if_pos hnil] at h
        exact absurd h (by simp)
      · rw [if_neg hnil] at h
        obtain ⟨rfl, rfl⟩ : c :: digs = fp ∧ rest = r := by
          simpa [Prod.mk.injEq] using h
        obtain ⟨hcs, hall, hhead⟩ := span_parts hspan
        simp only [List.cons_append, numFracPart, if_pos hdot]
        rw [hcs, List.append_assoc]
        rw [span_exact hall ?hstop2, if_neg hnil]
        case hstop2 =>
          cases rest with
          | nil =>
            cases u with
            | nil => trivial
            | cons x xs =>
              have := numStopper_head (hu rfl)
              simpa using this.1
          | cons x xs =>
            exact hhead x xs rfl
    · rw [if_neg hdot] at h
      obtain ⟨rfl, rfl⟩ : ([] : List Char) = fp ∧ c :: cs = r := by
        simpa [Prod.mk.injEq] using h
      simp only [List.cons_append, numFracPart, if_neg hdot]

/-- The exponent part behaves the same with more text appended. -/
theorem numExpPart_append {s ep r : List Char} (h : numExpPart s = some (ep, r))
    (u : List Char) (hu : r = [] → numStopper u = true) :
    numExpPart (s ++ u) = some (ep, r ++ u) := by
  cases s with
  | nil =>
    obtain ⟨rfl, rfl⟩ : ([] : List Char) = ep ∧ ([] : List Char) = r := by
      simpa [numExpPart, Prod.mk.injEq] using h
    cases u with
    | nil => rfl
    | cons x xs =>
      have hx := numStopper_head (hu rfl)
      simp only at hx
      simp [numExpPart, hx.2.2.1, hx.2.2.2]
  | cons c cs =>
    simp only [numExpPart] at h
    by_cases he : (c = 'e' || c = 'E') = true
    · rw [if_pos he] at h
      cases cs with
      | nil => exact absurd h (by simp)
      | cons d ds =>
        dsimp only at h
        by_cases hsign : (d = '+' || d = '-') = true
        · rw [if_pos hsign] at h
          rcases hspan : ds.span isDigitCh with ⟨digs, rest⟩
          rw [hspan] at h
          by_cases hnil : digs = []
          · rw [if_pos hnil] at h
            exact absurd h (by simp)
          · rw [if_neg hnil] at h
            obtain ⟨rfl, rfl⟩ : c :: d :: digs = ep ∧ rest = r := by
              simpa [Prod.mk.injEq] using h
            obtain ⟨hds, hall, hhead⟩ := span_parts hspan
            simp only [List.cons_append, numExpPart, if_pos he, if_pos hsign]
            rw [hds, List.append_assoc]
            rw [span_exact hall ?hstop3, if_neg hnil]
            case hstop3 =>
              cases rest with
              | nil =>
                cases u with
                | nil => trivial
                | cons x xs =>
                  have := numStopper_head (hu rfl)
                  simpa using this.1
              | cons x xs =>
                exact hhead x xs rfl
        · rw [if_neg hsign] at h
          rcases hspan : (d :: ds).span isDigitCh with ⟨digs, rest⟩
          rw [hspan] at h
          by_cases hnil : digs = []
          · rw [if_pos hnil] at h
            exact absurd h (by simp)
          · rw [if_neg hnil] at h
            obtain ⟨rfl, rfl⟩ : c :: digs = ep ∧ rest = r := by
              simpa [Prod.mk.injEq] using h
            obtain ⟨hds, hall, hhead⟩ := span_parts hspan
            simp only [List.cons_append, numExpPart, if_pos he, if_neg hsign]
            rw [show d :: (ds ++ u) = digs ++ (rest ++ u) from by
                  rw [← List.append_assoc, ← hds]; simp]
            rw [span_exact hall ?hstop4]
            case hstop4 =>
              cases rest with
              | nil =>
                cases u with
                | nil => trivial
                | cons x xs =>
                  have := numStopper_head (hu rfl)
                  simpa using this.1
              | cons x xs =>
                exact hhead x xs rfl
            simp [hnil]
    · rw [if_neg he] at h
      obtain ⟨rfl, rfl⟩ : ([] : List Char) = ep ∧ c :: cs = r := by
        simpa [Prod.mk.injEq] using h
      simp only [List.cons_append, numExpPart, if_neg he]

/-- The fraction-exponent continuation behaves the same with more text
appended. -/
theorem numAfterInt_append {pre s2 lx r : List Char}
    (h : numAfterInt pre s2 = some (lx, r)) (u : List Char)
    (hu : r = [] → numStopper u = true) :
    numAfterInt pre (s2 ++ u) = some (lx, r ++ u) := by
  simp only [numAfterInt] at h ⊢
  cases hfrac : numFracPart s2 with
  | none => rw [hfrac] at h; exact absurd h (by simp)
  | some p =>
    rcases p with ⟨fp, s3⟩
    rw [hfrac] at h
    dsimp only at h
    cases hexp : numExpPart s3 with
    | none => rw [hexp] at h; exact absurd h (by simp)
    | some q =>
      rcases q with ⟨ep, s4⟩
      rw [hexp] at h
      dsimp only at h
      have hs3 : s3 = [] → s4 = [] := by
        intro h3
        rw [h3] at hexp
        simp only [numExpPart, Option.some.injEq, Prod.mk.injEq] at hexp
        exact hexp.2.symm
      obtain ⟨rfl, rfl⟩ : pre ++ (fp ++ ep) = lx ∧ s4 = r := by simpa using h
      rw [numFracPart_append hfrac u (fun h3 => hu (hs3 h3))]
      dsimp only
      rw [numExpPart_append hexp u hu]

/-- The number lexer consumes the same lexeme with more text appended,
provided the lexeme cannot be extended into the appended text. -/
theorem parseNumber_append {s lx r : List Char} (h : parseNumber s = some (lx, r))
    (u : List Char) (hu : r = [] → numStopper u = true) :
    parseNumber (s ++ u) = some (lx, r ++ u) := by
  cases s with
  | nil => simp [parseNumber] at h
  | cons c cs =>
    rw [List.cons_append]
    simp only [parseNumber] at h ⊢
    by_cases hm : c = '-'
    · rw [if_pos hm] at h ⊢
      cases hint : numIntPart cs with
      | none => rw [hint] at h; exact absurd h (by simp)
      | some p =>
        rcases p with ⟨ip, s2⟩
        rw [hint] at h
        dsimp only at h
        have hs2 : s2 = [] → r = [] := by
          intro h2
          rw [h2] at h
          simp only [numAfterInt, numFracPart, numExpPart, Option.some.injEq,
                     Prod.mk.injEq] at h
          exact h.2.symm
        rw [numIntPart_append hint u (fun h2 => hu (hs2 h2))]
        exact numAfterInt_append h u hu
    · rw [if_neg hm] at h ⊢
      cases hint : numIntPart (c :: cs) with
      | none => rw [hint] at h; exact absurd h (by simp)
      | some p =>
        rcases p with ⟨ip, s2⟩
        rw [hint] at h
        dsimp only at h
        have hs2 : s2 = [] → r = [] := by
          intro h2
          rw [h2] at h
          simp only [numAfterInt, numFracPart, numExpPart, Option.some.injEq,
                     Prod.mk.injEq] at h
          exact h.2.symm
        have hres := numIntPart_append hint u (fun h2 => hu (hs2 h2))
        rw [List.cons_append] at hres
        rw [hres]
        exact numAfterInt_append h u hu

/-- A lexable number starts with a minus sign or a digit. -/
theorem parseNumber_head {lex lx r : List Char} (h : parseNumber lex = some (lx, r)) :
    ∃ c cs, lex = c :: cs ∧ (c = '-' ∨ isDigitCh c = true) := by
  cases lex with
  | nil => simp [parseNumber] at h
  | cons c cs =>
    refine ⟨c, cs, rfl, ?_⟩
    by_cases hm : c = '-'
    · exact Or.inl hm
    · right
      simp only [parseNumber, if_neg hm] at h
      cases hint : numIntPart (c :: cs) with
      | none => rw [hint] at h; exact absurd h (by simp)
      | some p =>
        simp only [numIntPart] at hint
        by_cases h0 : c = '0'
        · subst h0; decide
        · rw [if_neg h0] at hint
          by_cases hd : isDigitCh c = true
          · exact hd
          · rw [if_neg hd] at hint
            exact absurd hint (by simp)

/-- Classification facts for a character that can start a number. -/
theorem numHead_facts {c : Char} (h : c = '-' ∨ isDigitCh c = true) :
    isJsonWs c = false ∧ ¬ c = 'n' ∧ ¬ c = 't' ∧ ¬ c = 'f' ∧ ¬ c = dq ∧
      ¬ c = '[' ∧ ¬ c = lbrace ∧ ¬ c = ']' ∧ ¬ c = rbrace ∧
      (c = '-' || isDigitCh c) = true := by
  rcases h with rfl | hd
  · exact ⟨by decide, by decide, by decide, by decide, by decide, by decide,
           by decide, by decide, by decide, by decide⟩
  · have hn : 48 ≤ c.toNat ∧ c.toNat ≤ 57 := by
      simpa [isDigitCh, Bool.and_eq_true] using hd
    refine ⟨?_, ?_, ?_, ?_, ?_, ?_, ?_, ?_, ?_, by simp [hd]⟩
    · simp only [isJsonWs, Bool.or_eq_false_iff, decide_eq_false_iff_not]
      refine ⟨⟨⟨?_, ?_⟩, ?_⟩, ?_⟩ <;> (intro h2; rw [h2] at hn; exact absurd hn (by decide))
    all_goals (intro h2; rw [h2] at hn; exact absurd hn (by decide))

/-- Every serialized value starts with a character that is not whitespace
and closes no bracket. -/
theorem printVal_head (ind : List Char) (v : Json) (hwf : wfJson v = true) :
    ∃ c t, printVal ind v = c :: t ∧ isJsonWs c = false ∧ ¬ c = ']' ∧ ¬ c = rbrace := by
  cases v with
  | null => exact ⟨'n', _, rfl, by decide, by decide, by decide⟩
  | bool b =>
    cases b with
    | false => exact ⟨'f', _, rfl, by decide, by decide, by decide⟩
    | true => exact ⟨'t', _, rfl, by decide, by decide, by decide⟩
  | num lex =>
    have hp : parseNumber lex = some (lex, []) := by
      have := hwf
      simp only [wfJson, beq_iff_eq] at this
      exact this
    obtain ⟨c, cs, hlex, hc⟩ := parseNumber_head hp
    obtain ⟨hws, _, _, _, _, _, _, hbr1, hbr2, _⟩ := numHead_facts hc
    exact ⟨c, cs, by rw [printVal, hlex], hws, hbr1, hbr2⟩
  | str s => exact ⟨dq, _, rfl, by decide, by decide, by decide⟩
  | arr es =>
    cases es with
    | nil => exact ⟨'[', _, rfl, by decide, by decide, by decide⟩
    | cons e es2 => exact ⟨'[', _, rfl, by decide, by decide, by decide⟩
  | obj ms =>
    cases ms with
    | nil => exact ⟨lbrace, _, rfl, by decide, by decide, by decide⟩
    | cons m ms2 => exact ⟨lbrace, _, rfl, by decide, by decide, by decide⟩

/-- Key membership across an appended singleton. -/
theorem keyMem_append (k : List Char) (acc : List (List Char × Json))
    (kv : List Char × Json) :
    keyMem k (acc ++ [kv]) = (keyMem k acc || decide (kv.1 = k)) := by
  induction acc with
  | nil =>
    rcases kv with ⟨k1, v1⟩
    by_cases h : k1 = k <;> simp [keyMem, h]
  | cons a tl ih =>
    rcases a with ⟨k1, v1⟩
    by_cases h : k1 = k <;> simp [keyMem, h, ih]

/-- An absent key is set by appending. -/
theorem setMember_notMem {acc : List (List Char × Json)} {k : List Char} (v : Json)
    (h : keyMem k acc = false) : setMember acc k v = acc ++ [(k, v)] := by
  induction acc with
  | nil => rfl
  | cons a tl ih =>
    rcases a with ⟨k1, v1⟩
    simp only [keyMem] at h
    by_cases hk : k1 = k
    · rw [if_pos hk] at h
      exact absurd h (by simp)
    · rw [if_neg hk] at h
      simp only [setMember, if_neg hk, List.cons_append, List.cons.injEq, true_and]
      exact ih h

/-- A false key membership over a whole list, element by element. -/
theorem keyMem_false_forall {k : List Char} {l : List (List Char × Json)}
    (h : keyMem k l = false) : ∀ kv ∈ l, ¬ kv.1 = k := by
  induction l with
  | nil => intro kv hkv; simp at hkv
  | cons a tl ih =>
    intro kv hkv
    rcases a with ⟨k1, v1⟩
    simp only [keyMem] at h
    by_cases hk : k1 = k
    · rw [if_pos hk] at h
      exact absurd h (by simp)
    · rw [if_neg hk] at h
      rcases List.mem_cons.mp hkv with rfl | h2
      · exact hk
      · exact ih h kv h2

/-- Folding raw members with unique keys through the JavaScript object
builder reproduces them unchanged. -/
theorem dedupe_go (ms : List (List Char × Json)) : ∀ acc,
    wfMembers ms = true → (∀ kv ∈ ms, keyMem kv.1 acc = false) →
    ms.foldl (fun acc kv => setMember acc kv.1 kv.2) acc = acc ++ ms := by
  induction ms with
  | nil => intro acc _ _; simp
  | cons kv tl ih =>
    intro acc hwf hdisj
    rcases kv with ⟨k, v⟩
    simp only [wfMembers, Bool.and_eq_true, Bool.not_eq_true'] at hwf
    obtain ⟨⟨hkm, hv⟩, htl⟩ := hwf
    simp only [List.foldl_cons]
    rw [setMember_notMem v (hdisj (k, v) (by simp))]
    rw [ih (acc ++ [(k, v)]) htl ?_]
    · simp
    · intro kv2 hkv2
      rw [keyMem_append]
      have h1 : keyMem kv2.1 acc = false := hdisj kv2 (by simp [hkv2])
      have h2 : ¬ kv2.1 = k := keyMem_false_forall hkm kv2 hkv2
      have h3 : ¬ k = kv2.1 := fun heq => h2 heq.symm
      simp [h1, h3]

/-- Parsed raw members with unique keys survive object construction. -/
theorem dedupeMembers_wf (ms : List (List Char × Json)) (h : wfMembers ms = true) :
    dedupeMembers ms = ms := by
  have hgo := dedupe_go ms [] h (fun kv _ => rfl)
  simpa [dedupeMembers] using hgo

/-- A head character that cannot extend a number lexeme stops it. -/
theorem numStopper_cons {c : Char}
    (h : (isDigitCh c || c = '.' || c = 'e' || c = 'E') = false) (t : List Char) :
    numStopper (c :: t) = true := by
  simp [numStopper, h]

/-- Whitespace lists are closed under cons of a whitespace character. -/
theorem isWsAll_cons {c : Char} {l : List Char} (hc : isJsonWs c = true)
    (h : isWsAll l = true) : isWsAll (c :: l) = true := by
  simp only [isWsAll, List.all_cons, hc, Bool.true_and]
  exact h

/-- Whitespace lists are closed under append. -/
theorem isWsAll_append {a b : List Char} (ha : isWsAll a = true)
    (hb : isWsAll b = true) : isWsAll (a ++ b) = true := by
  simp only [isWsAll, List.all_append]
  simp only [isWsAll] at ha hb
  simp [ha, hb]

/-- Equation of the element serializer at a one-element list. -/
theorem printElems_one (ind2 : List Char) (e : Json) :
    printElems ind2 [e] = printVal ind2 e := rfl

/-- Equation of the element serializer at a list of two or more. -/
theorem printElems_two (ind2 : List Char) (e e2 : Json) (es2 : List Json) :
    printElems ind2 (e :: e2 :: es2)
      = printVal ind2 e ++ (',' :: nlCh :: (ind2 ++ printElems ind2 (e2 :: es2))) := rfl

/-- Equation of the member serializer at a one-member list. -/
theorem printMembers_one (ind2 : List Char) (kv : List Char × Json) :
    printMembers ind2 [kv]
      = dq :: (escapeStr kv.1 ++ (dq :: ':' :: ' ' :: printVal ind2 kv.2)) := by
  obtain ⟨k, v⟩ := kv
  rfl

/-- Equation of the member serializer at a list of two or more. -/
theorem printMembers_two (ind2 : List Char) (kv m2 : List Char × Json)
    (ms2 : List (List Char × Json)) :
    printMembers ind2 (kv :: m2 :: ms2)
      = dq :: (escapeStr kv.1 ++ (dq :: ':' :: ' ' :: printVal ind2 kv.2))
          ++ (',' :: nlCh :: (ind2 ++ printMembers ind2 (m2 :: ms2))) := by
  obtain ⟨k, v⟩ := kv
  rfl

/-- The head member of a well-formed member list has a well-formed value,
and the tail is well-formed. -/
theorem wfMembers_cons {kv : List Char × Json} {ms : List (List Char × Json)}
    (h : wfMembers (kv :: ms) = true) :
    wfJson kv.2 = true ∧ wfMembers ms = true := by
  obtain ⟨k, v⟩ := kv
  simp only [wfMembers, Bool.and_eq_true] at h
  exact ⟨h.1.2, h.2⟩

/-- A nonempty element list is serialized with its first element's text in
front. -/
theorem printElems_cons (ind2 : List Char) (e : Json) (es : List Json) :
    ∃ t2, printElems ind2 (e :: es) = printVal ind2 e ++ t2 := by
  cases es with
  | nil => exact ⟨[], by rw [printElems_one, List.append_nil]⟩
  | cons e2 es2 => exact ⟨_, printElems_two ind2 e e2 es2⟩

/-- A nonempty member list is serialized with an opening quote in front. -/
theorem printMembers_cons (ind2 : List Char) (kv : List Char × Json)
    (ms : List (List Char × Json)) :
    ∃ t2, printMembers ind2 (kv :: ms) = dq :: t2 := by
  obtain ⟨k, v⟩ := kv
  cases ms with
  | nil => exact ⟨_, rfl⟩
  | cons m2 ms2 => exact ⟨_, rfl⟩

mutual

/-- Parsing the serialization of a well-formed value consumes exactly the
serialized text and returns the value, for any whitespace indentation, any
number-stopping remainder and sufficient fuel. -/
theorem rtVal (v : Json) (ind rest : List Char) (fuel : Nat)
    (hwf : wfJson v = true) (hind : isWsAll ind = true)
    (hstop : numStopper rest = true)
    (hfuel : (printVal ind v).length < fuel) :
    parseVal fuel (printVal ind v ++ rest) = some (v, rest) := by
  cases fuel with
  | zero => exact absurd hfuel (Nat.not_lt_zero _)
  | succ f =>
    cases v with
    | null => rfl
    | bool b =>
      cases b with
      | false => rfl
      | true => rfl
    | num lex =>
      have hp : parseNumber lex = some (lex, []) := by
        simp only [wfJson, beq_iff_eq] at hwf
        exact hwf
      obtain ⟨c, cs, hlex, hc⟩ := parseNumber_head hp
      obtain ⟨hws, hn, ht, hf2, hq, _, _, _, _, hnum⟩ := numHead_facts hc
      subst hlex
      simp only [printVal, List.cons_append]
      simp only [parseVal]
      rw [skipWs_cons_not hws]
      dsimp only
      rw [if_neg hn, if_neg ht, if_neg hf2, if_neg hq, if_pos hnum]
      rw [show c :: (cs ++ rest) = (c :: cs) ++ rest from rfl]
      rw [parseNumber_append hp rest (fun _ => hstop)]
      dsimp only
      rw [List.nil_append]
    | str s =>
      simp only [printVal, List.cons_append, List.append_assoc,
        List.singleton_append, List.nil_append]
      simp only [parseVal]
      rw [skipWs_cons_not (by decide : isJsonWs dq = false)]
      dsimp only
      rw [if_neg (by decide : ¬ dq = 'n'), if_neg (by decide : ¬ dq = 't'),
          if_neg (by decide : ¬ dq = 'f'), if_pos rfl]
      rw [parseStringBody_escape s rest]
    | arr es =>
      cases es with
      | nil => rfl
      | cons e es2 =>
        have hwfl : wfList (e :: es2) = true := by
          simp only [wfJson] at hwf
          exact hwf
        have hwfe : wfJson e = true := by
          simp only [wfList, Bool.and_eq_true] at hwfl
          exact hwfl.1
        have hind2 : isWsAll (ind ++ [' ', ' ']) = true :=
          isWsAll_append hind (by decide)
        have hnl2 : isWsAll (nlCh :: (ind ++ [' ', ' '])) = true :=
          isWsAll_cons (by decide) hind2
        obtain ⟨t2, hPE⟩ := printElems_cons (ind ++ [' ', ' ']) e es2
        obtain ⟨c, t, hpv, hcws, hcne, _⟩ := printVal_head (ind ++ [' ', ' ']) e hwfe
        have hshape : printVal ind (Json.arr (e :: es2)) ++ rest
            = '[' :: ((nlCh :: (ind ++ [' ', ' '])) ++
              (printElems (ind ++ [' ', ' ']) (e :: es2) ++
                (nlCh :: (ind ++ (']' :: rest))))) := by
          simp [printVal]
        have hfe : (printElems (ind ++ [' ', ' ']) (e :: es2)).length + 1 < f := by
          have hlen := hfuel
          simp only [printVal, List.length_cons, List.length_append] at hlen
          omega
        rw [hshape]
        simp only [parseVal]
        rw [skipWs_cons_not (by decide : isJsonWs '[' = false)]
        dsimp only
        rw [if_neg (by decide : ¬ ('[' : Char) = 'n'),
            if_neg (by decide : ¬ ('[' : Char) = 't'),
            if_neg (by decide : ¬ ('[' : Char) = 'f'),
            if_neg (by decide : ¬ ('[' : Char) = dq),
            if_neg (by decide : ¬ (('[' : Char) = '-' || isDigitCh '[') = true),
            if_pos rfl]
        rw [skipWs_ws_append hnl2]
        have hPX : printElems (ind ++ [' ', ' ']) (e :: es2) ++
            (nlCh :: (ind ++ (']' :: rest))) =
            c :: (t ++ (t2 ++ (nlCh :: (ind ++ (']' :: rest))))) := by
          rw [hPE, hpv]
          simp
        rw [hPX]
        rw [skipWs_cons_not hcws]
        dsimp only
        rw [if_neg hcne]
        rw [← hPX]
        rw [rtElems e es2 (ind ++ [' ', ' ']) ind rest f hwfl hind2 hind hfe]
    | obj ms0 =>
      cases ms0 with
      | nil => rfl
      | cons m ms =>
        have hwfm : wfMembers (m :: ms) = true := by
          simp only [wfJson] at hwf
          exact hwf
        have hind2 : isWsAll (ind ++ [' ', ' ']) = true :=
          isWsAll_append hind (by decide)
        have hnl2 : isWsAll (nlCh :: (ind ++ [' ', ' '])) = true :=
          isWsAll_cons (by decide) hind2
        obtain ⟨t2, hPM⟩ := printMembers_cons (ind ++ [' ', ' ']) m ms
        have hshape : printVal ind (Json.obj (m :: ms)) ++ rest
            = lbrace :: ((nlCh :: (ind ++ [' ', ' '])) ++
              (printMembers (ind ++ [' ', ' ']) (m :: ms) ++
                (nlCh :: (ind ++ (rbrace :: rest))))) := by
          simp [printVal]
        have hfm : (printMembers (ind ++ [' ', ' ']) (m :: ms)).length + 1 < f := by
          have hlen := hfuel
          simp only [printVal, List.length_cons, List.length_append] at hlen
          omega
        rw [hshape]
        simp only [parseVal]
        rw [skipWs_cons_not (by decide : isJsonWs lbrace = false)]
        dsimp only
        rw [if_neg (by decide : ¬ lbrace = 'n'),
            if_neg (by decide : ¬ lbrace = 't'),
            if_neg (by decide : ¬ lbrace = 'f'),
            if_neg (by decide : ¬ lbrace = dq),
            if_neg (by decide : ¬ (lbrace = '-' || isDigitCh lbrace) = true),
            if_neg (by decide : ¬ lbrace = '['),
            if_pos rfl]
        rw [skipWs_ws_append hnl2]
        have hPX : printMembers (ind ++ [' ', ' ']) (m :: ms) ++
            (nlCh :: (ind ++ (rbrace :: rest))) =
            dq :: (t2 ++ (nlCh :: (ind ++ (rbrace :: rest)))) := by
          rw [hPM]
          simp
        rw [hPX]
        rw [skipWs_cons_not (by decide : isJsonWs dq = false)]
        dsimp only
        rw [if_neg (by decide : ¬ dq = rbrace)]
        rw [← hPX]
        rw [rtMembers m ms (ind ++ [' ', ' ']) ind rest f hwfm hind2 hind hfm]
        dsimp only
        rw [dedupeMembers_wf _ hwfm]
termination_by sizeOf v

/-- Parsing the serialization of a nonempty well-formed element list, up to
the closing bracket on its own indented line, returns the list. -/
theorem rtElems (e : Json) (es : List Json) (ind2 ind rest : List Char) (fuel : Nat)
    (hwf : wfList (e :: es) = true) (hind2 : isWsAll ind2 = true)
    (hind : isWsAll ind = true)
    (hfuel : (printElems ind2 (e :: es)).length + 1 < fuel) :
    parseElems fuel (printElems ind2 (e :: es) ++ (nlCh :: (ind ++ (']' :: rest))))
      = some (e :: es, rest) := by
  cases fuel with
  | zero => exact absurd hfuel (Nat.not_lt_zero _)
  | succ f =>
    have hwfe : wfJson e = true := by
      simp only [wfList, Bool.and_eq_true] at hwf
      exact hwf.1
    cases es with
    | nil =>
      have hfv : (printVal ind2 e).length < f := by
        have hlen := hfuel
        rw [printElems_one] at hlen
        omega
      rw [printElems_one]
      simp only [parseElems]
      rw [rtVal e ind2 (nlCh :: (ind ++ (']' :: rest))) f hwfe hind2
            (numStopper_cons (by decide) _) hfv]
      dsimp only
      rw [show nlCh :: (ind ++ (']' :: rest)) = (nlCh :: ind) ++ (']' :: rest) from rfl]
      rw [skipWs_ws_append (isWsAll_cons (by decide) hind)]
      rw [skipWs_cons_not (by decide : isJsonWs ']' = false)]
      dsimp only
      rw [if_neg (by decide : ¬ (']' : Char) = ','), if_pos rfl]
    | cons e2 es2 =>
      have hwl2 : wfList (e2 :: es2) = true := by
        simp only [wfList, Bool.and_eq_true] at hwf ⊢
        exact hwf.2
      have hsh : printElems ind2 (e :: e2 :: es2) ++ (nlCh :: (ind ++ (']' :: rest)))
          = printVal ind2 e ++ (',' :: (nlCh :: (ind2 ++
              (printElems ind2 (e2 :: es2) ++ (nlCh :: (ind ++ (']' :: rest))))))) := by
        rw [printElems_two]
        simp
      have hfv : (printVal ind2 e).length < f := by
        have hlen := hfuel
        rw [printElems_two] at hlen
        simp only [List.length_append, List.length_cons] at hlen
        omega
      have hfe2 : (printElems ind2 (e2 :: es2)).length + 1 < f := by
        have hlen := hfuel
        rw [printElems_two] at hlen
        simp only [List.length_append, List.length_cons] at hlen
        omega
      rw [hsh]
      simp only [parseElems]
      rw [rtVal e ind2 _ f hwfe hind2 (numStopper_cons (by decide) _) hfv]
      dsimp only
      rw [skipWs_cons_not (by decide : isJsonWs ',' = false)]
      dsimp only
      rw [if_pos rfl]
      rw [show nlCh :: (ind2 ++ (printElems ind2 (e2 :: es2) ++
            (nlCh :: (ind ++ (']' :: rest))))) = (nlCh :: ind2) ++
            (printElems ind2 (e2 :: es2) ++ (nlCh :: (ind ++ (']' :: rest)))) from rfl]
      rw [parseElems_ws (isWsAll_cons (by decide) hind2)]
      rw [rtElems e2 es2 ind2 ind rest f hwl2 hind2 hind hfe2]
termination_by sizeOf e + sizeOf es

/-- Parsing the serialization of a nonempty well-formed member list, up to
the closing brace on its own indented line, returns the raw members. -/
theorem rtMembers (kv : List Char × Json) (ms : List (List Char × Json))
    (ind2 ind rest : List Char) (fuel : Nat)
    (hwf : wfMembers (kv :: ms) = true) (hind2 : isWsAll ind2 = true)
    (hind : isWsAll ind = true)
    (hfuel : (printMembers ind2 (kv :: ms)).length + 1 < fuel) :
    parseMembers fuel (printMembers ind2 (kv :: ms) ++
        (nlCh :: (ind ++ (rbrace :: rest))))
      = some (kv :: ms, rest) := by
  cases fuel with
  | zero => exact absurd hfuel (Nat.not_lt_zero _)
  | succ f =>
    have hwfv : wfJson kv.2 = true := (wfMembers_cons hwf).1
    cases ms with
    | nil =>
      have hsh : printMembers ind2 [kv] ++ (nlCh :: (ind ++ (rbrace :: rest)))
          = dq :: (escapeStr kv.1 ++ (dq :: (':' :: (' ' :: (printVal ind2 kv.2 ++
              (nlCh :: (ind ++ (rbrace :: rest)))))))) := by
        rw [printMembers_one]
        simp
      have hfv : (printVal ind2 kv.2).length < f := by
        have hlen := hfuel
        rw [printMembers_one] at hlen
        simp only [List.length_append, List.length_cons] at hlen
        omega
      rw [hsh]
      simp only [parseMembers]
      rw [skipWs_cons_not (by decide : isJsonWs dq = false)]
      dsimp only
      rw [if_pos rfl]
      rw [parseStringBody_escape kv.1 _]
      dsimp only
      rw [skipWs_cons_not (by decide : isJsonWs ':' = false)]
      dsimp only
      rw [if_pos rfl]
      rw [show (' ' :: (printVal ind2 kv.2 ++ (nlCh :: (ind ++ (rbrace :: rest)))))
            = [' '] ++ (printVal ind2 kv.2 ++ (nlCh :: (ind ++ (rbrace :: rest)))) from rfl]
      rw [parseVal_ws (by decide : isWsAll [' '] = true)]
      rw [rtVal kv.2 ind2 _ f hwfv hind2 (numStopper_cons (by decide) _) hfv]
      dsimp only
      rw [show nlCh :: (ind ++ (rbrace :: rest))
            = (nlCh :: ind) ++ (rbrace :: rest) from rfl]
      rw [skipWs_ws_append (isWsAll_cons (by decide) hind)]
      rw [skipWs_cons_not (by decide : isJsonWs rbrace = false)]
      dsimp only
      rw [if_neg (by decide : ¬ rbrace = ','), if_pos rfl]
    | cons m2 ms2 =>
      have hwm2 : wfMembers (m2 :: ms2) = true := (wfMembers_cons hwf).2
      have hsh : printMembers ind2 (kv :: m2 :: ms2) ++
            (nlCh :: (ind ++ (rbrace :: rest)))
          = dq :: (escapeStr kv.1 ++ (dq :: (':' :: (' ' :: (printVal ind2 kv.2 ++
              (',' :: (nlCh :: (ind2 ++ (printMembers ind2 (m2 :: ms2) ++
                (nlCh :: (ind ++ (rbrace :: rest)))))))))))) := by
        rw [printMembers_two]
        simp
      have hfv : (printVal ind2 kv.2).length < f := by
        have hlen := hfuel
        rw [printMembers_two] at hlen
        simp only [List.length_append, List.length_cons] at hlen
        omega
      have hfm2 : (printMembers ind2 (m2 :: ms2)).length + 1 < f := by
        have hlen := hfuel
        rw [printMembers_two] at hlen
        simp only [List.length_append, List.length_cons] at hlen
        omega
      rw [hsh]
      simp only [parseMembers]
      rw [skipWs_cons_not (by decide : isJsonWs dq = false)]
      dsimp only
      rw [if_pos rfl]
      rw [parseStringBody_escape kv.1 _]
      dsimp only
      rw [skipWs_cons_not (by decide : isJsonWs ':' = false)]
      dsimp only
      rw [if_pos rfl]
      rw [show (' ' :: (printVal ind2 kv.2 ++ (',' :: (nlCh :: (ind2 ++
            (printMembers ind2 (m2 :: ms2) ++ (nlCh :: (ind ++ (rbrace :: rest)))))))))
            = [' '] ++ (printVal ind2 kv.2 ++ (',' :: (nlCh :: (ind2 ++
            (printMembers ind2 (m2 :: ms2) ++ (nlCh :: (ind ++ (rbrace :: rest)))))))) from rfl]
      rw [parseVal_ws (by decide : isWsAll [' '] = true)]
      rw [rtVal kv.2 ind2 _ f hwfv hind2 (numStopper_cons (by decide) _) hfv]
      dsimp only
      rw [skipWs_cons_not (by decide : isJsonWs ',' = false)]
      dsimp only
      rw [if_pos rfl]
      rw [show nlCh :: (ind2 ++ (printMembers ind2 (m2 :: ms2) ++
            (nlCh :: (ind ++ (rbrace :: rest)))))
            = (nlCh :: ind2) ++ (printMembers ind2 (m2 :: ms2) ++
            (nlCh :: (ind ++ (rbrace :: rest)))) from rfl]
      rw [parseMembers_ws (isWsAll_cons (by decide) hind2)]
      rw [rtMembers m2 ms2 ind2 ind rest f hwm2 hind2 hind hfm2]
termination_by sizeOf kv + sizeOf ms
decreasing_by
  all_goals subst_vars
  all_goals obtain ⟨k1, v1⟩ := kv
  all_goals simp
  all_goals omega

end

/-- Round-trip of the serializer and the whole-document parser on a
well-formed value. -/
theorem jsonParse_stringify (v : Json) (hwf : wfJson v = true) :
    jsonParseFull (stringify2 v) = some v := by
  have h := rtVal v [] [] (2 * (printVal [] v).length + 4) hwf rfl rfl (by omega)
  rw [List.append_nil] at h
  simp only [jsonParseFull, stringify2]
  rw [h]
  simp [skipWs]

/-! ## Claim theorems -/

/-- C1: the extraction pipeline never lets a fault escape — every input
yields either a `Recovered` value or a `Failed` value whose diagnostic
message is non-empty; in particular the empty string and unbalanced-brace
text with no JSON yield such a `Failed` value. -/
theorem claim_C1 :
    (∃ i, extract [] = ExtractResult.failed i ∧ failedMessage i ≠ []) ∧
    (∃ i, extract exUnbalanced = ExtractResult.failed i ∧ failedMessage i ≠ []) ∧
    ∀ s : List Char, (∃ v st, extract s = ExtractResult.recovered v st) ∨
      (∃ i, extract s = ExtractResult.failed i ∧ failedMessage i ≠ []) := by
  refine ⟨⟨FailInfo.mk [] [], by decide, failedMessage_ne _⟩,
          ⟨FailInfo.mk exUnbalanced exUnbalanced, by decide, failedMessage_ne _⟩, ?_⟩
  intro s
  cases h : extract s with
  | recovered v st => exact Or.inl ⟨v, st, rfl⟩
  | failed i => exact Or.inr ⟨i, rfl, failedMessage_ne i⟩

/-- C2, amended: the AI-path structural check accepts a decoded JSON value
exactly when `validateFormSchema` returns `isValid: true` AND the value is
an object with a truthy `formTitle` — the import validator never reads
`formTitle`, so the two checks coincide only modulo the title test. -/
theorem claim_C2 (v : Json) :
    aiAcceptsB v = (importAcceptsB v && titleTruthyB v) := by
  cases v with
  | null => decide
  | bool b => cases b <;> decide
  | num lex =>
    simp [aiAcceptsB, validateAiSchema, validateAiSchemaCore, getProp, optTruthy,
          importAcceptsB, validateFormSchema, typeofIsObject, titleTruthyB]
  | str s =>
    simp [aiAcceptsB, validateAiSchema, validateAiSchemaCore, getProp, optTruthy,
          importAcceptsB, validateFormSchema, typeofIsObject, titleTruthyB]
  | arr es =>
    simp [aiAcceptsB, validateAiSchema, validateAiSchemaCore, getProp, optTruthy,
          importAcceptsB, validateFormSchema, typeofIsObject, titleTruthyB, jsTruthy,
          lookupMem]
  | obj ms =>
    simp only [aiAcceptsB, validateAiSchema, validateAiSchemaCore, getProp,
               importAcceptsB, validateFormSchema, titleTruthyB, jsTruthy,
               typeofIsObject, Bool.not_true, Bool.or_self, Bool.false_or]
    by_cases ht : optTruthy (lookupMem ms keyFormTitle)
    · simp only [ht, not_true, if_neg, if_false, Bool.and_true]
      cases hf : lookupMem ms keyFields with
      | none => simp
      | some fv =>
        cases fv with
        | arr fs =>
          have := loopsAgree fs
          cases hai : aiFieldsLoop fs with
          | error e => cases hval : validateFieldsLoop fs <;>
              simp [hai, hval] at this ⊢ <;> simp [this]
          | ok o => cases hval : validateFieldsLoop fs <;> cases o <;>
              simp [hai, hval] at this ⊢ <;> simp [this]
        | null => simp
        | bool b => simp
        | num lex => simp
        | str s => simp
        | obj ms2 => simp
    · simp [ht]

/-- C2, counterexample: the value with a `fields` array but no `formTitle`
is accepted by `validateFormSchema` yet rejected by the AI-output check,
so the two structural validations differ. -/
theorem claim_C2_counterexample :
    importAcceptsB exNoTitle = true ∧ aiAcceptsB exNoTitle = false ∧
    titleTruthyB exNoTitle = false := by decide

/-- C3, amended: for input whose trimmed text is valid JSON AND is left
unchanged by the first-brace/last-brace boundary cut (in particular every
object literal, and every text with no brace span), extraction returns
`Recovered` with exactly that JSON value via the primary decode — the
fence strip is provably a no-op on valid JSON.  Without the boundary-cut
proviso the claim fails, because the cut runs unconditionally before the
first decode (see the counterexample). -/
theorem claim_C3 (s : List Char) (v : Json)
    (hparse : jsonParseFull (trimWs s) = some v)
    (hid : boundaryTrim (trimWs s) = trimWs s) :
    extract s = ExtractResult.recovered v Stage.primary := by
  have hfence : stripFences (trimWs s) = trimWs s :=
    stripFences_of_parse (trimWs s) v hparse
  simp only [extract, cleanInput, hfence, hid, hparse]

/-- C3, witness: the amended theorem applied to the plain object input. -/
theorem claim_C3_witness :
    jsonParseFull (trimWs exObjA) = some valObjA ∧
    boundaryTrim (trimWs exObjA) = trimWs exObjA ∧
    extract exObjA = ExtractResult.recovered valObjA Stage.primary :=
  ⟨by decide, by decide, claim_C3 exObjA valObjA (by decide) (by decide)⟩

/-- C3, counterexample: an array document is valid unwrapped JSON, but
the unconditional boundary cut hands the primary decode only the inner
object, so extraction recovers a different value than the document. -/
theorem claim_C3_counterexample :
    trimWs exC3 = exC3 ∧
    jsonParseFull exC3 = some (Json.arr [valObjA]) ∧
    extract exC3 = ExtractResult.recovered valObjA Stage.primary ∧
    valObjA ≠ Json.arr [valObjA] := by decide

/-- C4, amended: for text of the shape prose-object-prose-object-prose
where the two objects are individually decodable and properly
brace-balanced (depth stays positive inside, no braces in string
literals), the prose pieces are brace-free, the outer cleaning steps are
identity, and the cleaned two-object span is not itself decodable,
extraction recovers the LONGER object via the depth scan.  The brace-free
prose proviso is necessary: a stray brace in the separating prose makes
the scan miss candidates (see the counterexample). -/
theorem claim_C4 (p1 mid1 p2 mid2 p3 o1 o2 : List Char) (v1 v2 : Json)
    (ho1 : o1 = lbrace :: (mid1 ++ [rbrace]))
    (ho2 : o2 = lbrace :: (mid2 ++ [rbrace]))
    (hm1 : scanPos 1 mid1 = true) (hd1 : braceDelta mid1 = 0)
    (hm2 : scanPos 1 mid2 = true) (hd2 : braceDelta mid2 = 0)
    (hp1 : braceFree p1 = true) (hp2 : braceFree p2 = true) (hp3 : braceFree p3 = true)
    (hv1 : jsonParseFull o1 = some v1) (hv2 : jsonParseFull o2 = some v2)
    (htrim : trimWs (p1 ++ ((o1 ++ (p2 ++ o2)) ++ p3)) = p1 ++ ((o1 ++ (p2 ++ o2)) ++ p3))
    (hfence : stripFences (p1 ++ ((o1 ++ (p2 ++ o2)) ++ p3))
      = p1 ++ ((o1 ++ (p2 ++ o2)) ++ p3))
    (hfail : jsonParseFull (o1 ++ (p2 ++ o2)) = none) :
    extract (p1 ++ ((o1 ++ (p2 ++ o2)) ++ p3)) =
      ExtractResult.recovered (if o2.length < o1.length then v1 else v2)
        Stage.depthScan := by
  have hhead : ∃ t, o1 ++ (p2 ++ o2) = lbrace :: t :=
    ⟨(mid1 ++ [rbrace]) ++ (p2 ++ o2), by rw [ho1]; simp⟩
  have hlast : ∃ t, o1 ++ (p2 ++ o2) = t ++ [rbrace] :=
    ⟨o1 ++ (p2 ++ (lbrace :: mid2)), by rw [ho2]; simp⟩
  have hmspan : braceSpan (p1 ++ ((o1 ++ (p2 ++ o2)) ++ p3)) = some (o1 ++ (p2 ++ o2)) :=
    braceSpan_concat p1 (o1 ++ (p2 ++ o2)) p3 hp1 hp3 hhead hlast
  have hclean : cleanInput (p1 ++ ((o1 ++ (p2 ++ o2)) ++ p3)) = o1 ++ (p2 ++ o2) := by
    rw [cleanInput, htrim, hfence, boundaryTrim, hmspan]
  have hspan2 : braceSpan (o1 ++ (p2 ++ o2)) = some (o1 ++ (p2 ++ o2)) := by
    have h := braceSpan_concat [] (o1 ++ (p2 ++ o2)) [] (by decide) (by decide) hhead hlast
    simpa using h
  have hscan : scanObjs (o1 ++ (p2 ++ o2)) = [o1, o2] := by
    rw [ho1, ho2]
    exact scanObjs_two mid1 p2 mid2 hm1 hd1 hm2 hd2 hp2
  have hpick : pickLargest [o1, o2] = some (if o2.length < o1.length then o1 else o2) := by
    simp [pickLargest]
  simp only [extract, hclean, hfail]
  simp only [extractStageA, hspan2, hfail, extractStageB, extractStageC, hscan, hpick]
  by_cases hlen : o2.length < o1.length
  · simp only [if_pos hlen, hv1]
  · simp only [if_neg hlen, hv2]

/-- C4, witness: the amended theorem applied to the specification's own
example input, which recovers the longer second object. -/
theorem claim_C4_witness :
    extract exC4 = ExtractResult.recovered valObjB Stage.depthScan := by
  have h := claim_C4 (strL ("noise ")) (strL ("\"a\":1")) (strL (" more "))
      (strL ("\"formTitle\":\"X\",\"fields\":[]")) (strL (" end")) exObjA exObjB
      valObjA valObjB rfl rfl (by decide) (by decide) (by decide) (by decide)
      (by decide) (by decide) (by decide) (by decide) (by decide)
      (by decide) (by decide) (by decide)
  rw [show exC4 = strL ("noise ") ++ ((exObjA ++ (strL (" more ") ++ exObjB))
        ++ strL (" end")) by simp [exC4], h,
      if_neg (by decide : ¬ exObjB.length < exObjA.length)]

/-- C4, counterexample: an input holding exactly two individually
decodable, non-nested objects of different lengths, separated and
surrounded by non-JSON prose, where the separating prose contains a stray
closing brace: extraction recovers the shorter object, not the longer. -/
theorem claim_C4_counterexample :
    containsSub exObjA exC4bad = true ∧ containsSub exObjB exC4bad = true ∧
    jsonParseFull exObjA = some valObjA ∧ jsonParseFull exObjB = some valObjB ∧
    exObjA.length < exObjB.length ∧
    extract exC4bad = ExtractResult.recovered valObjA Stage.depthScan ∧
    valObjA ≠ valObjB := by decide

/-- C5, amended: whenever extraction fails, the reported error is the one
raised by the first (primary) decode attempt on the cleaned candidate
string — not the last stage attempted — and the bounded 1000-character
excerpt is of the cleaned candidate and goes to the console log, while the
returned message is the fixed template around the primary error only. -/
theorem claim_C5 (raw : List Char) (i : FailInfo)
    (h : extract raw = ExtractResult.failed i) :
    i.primaryCandidate = cleanInput raw ∧
    i.loggedExcerpt = (cleanInput raw).take 1000 ∧
    failedMessage i = failMsgPre ++ hostErrMsg (cleanInput raw) ++ failMsgPost := by
  simp only [extract] at h
  split at h
  · exact absurd h (by simp)
  · have hi := extractStageA_failed h
    subst hi
    exact ⟨rfl, rfl, rfl⟩

/-- C5, witness: the amended theorem applied to the concrete input with a
failing cascade. -/
theorem claim_C5_witness :
    (FailInfo.mk exC5cand exC5cand).primaryCandidate = cleanInput exC5 ∧
    (FailInfo.mk exC5cand exC5cand).loggedExcerpt = (cleanInput exC5).take 1000 ∧
    failedMessage (FailInfo.mk exC5cand exC5cand) =
      failMsgPre ++ hostErrMsg (cleanInput exC5) ++ failMsgPost :=
  claim_C5 exC5 (FailInfo.mk exC5cand exC5cand) (by decide)

/-- C5, counterexample: on an input whose stages all fail, the reported
error is the primary attempt's (its candidate differs from the last
attempted stage's candidate), the message does not contain the first 1000
characters of the original input, and the logged excerpt is of the cleaned
string rather than the original text. -/
theorem claim_C5_counterexample :
    extract exC5 = ExtractResult.failed (FailInfo.mk exC5cand exC5cand) ∧
    cleanInput exC5 = exC5cand ∧
    pickLargest (scanObjs exC5cand) = some [lbrace, 'a', rbrace] ∧
    jsonParseFull [lbrace, 'a', rbrace] = none ∧
    ([lbrace, 'a', rbrace] : List Char) ≠ exC5cand ∧
    containsSub (exC5.take 1000) (failedMessage (FailInfo.mk exC5cand exC5cand)) = false ∧
    exC5cand.take 1000 ≠ exC5.take 1000 := by decide

/-- C6, amended: a decoded JSON value whose `formTitle` property is
missing or the empty string is rejected by the AI-output path; the
file-import path does not enforce this rule (see the counterexample). -/
theorem claim_C6 (v : Json) (h : titleAbsentOrEmptyB v = true) :
    aiAcceptsB v = false := by
  cases v with
  | null => decide
  | bool b => cases b <;> decide
  | num lex =>
    simp [aiAcceptsB, validateAiSchema, validateAiSchemaCore, getProp, optTruthy]
  | str s =>
    simp [aiAcceptsB, validateAiSchema, validateAiSchemaCore, getProp, optTruthy]
  | arr es =>
    simp [aiAcceptsB, validateAiSchema, validateAiSchemaCore, getProp, optTruthy]
  | obj ms =>
    simp only [titleAbsentOrEmptyB] at h
    simp only [aiAcceptsB, validateAiSchema, validateAiSchemaCore, getProp]
    cases hl : lookupMem ms keyFormTitle with
    | none => simp [optTruthy]
    | some j =>
      rw [hl] at h
      cases j with
      | str s =>
        cases s with
        | nil => simp [optTruthy, jsTruthy]
        | cons c cs => simp at h
      | null => simp [optTruthy, jsTruthy]
      | bool b => simp at h
      | num lex => simp at h
      | arr es => simp at h
      | obj ms2 => simp at h

/-- C6, witness: the amended theorem applied to the concrete title-less
value. -/
theorem claim_C6_witness :
    titleAbsentOrEmptyB exNoTitle = true ∧ aiAcceptsB exNoTitle = false :=
  ⟨by decide, claim_C6 exNoTitle (by decide)⟩

/-- C6, counterexample: the import-path `validateFormSchema` returns
`isValid: true` for a value whose `formTitle` is missing — only the
AI path enforces the title. -/
theorem claim_C6_counterexample :
    titleAbsentOrEmptyB exNoTitle = true ∧
    validateFormSchema exNoTitle = Except.ok (ValidationResult.mk true none) := by decide

/-- C7, amended: when every element of the `fields` array is non-null,
a structurally bad element makes both validation paths return their
invalid-field-structure outcome as a value — the import validator its
missing-properties result, the AI path (when the title check passes) its
invalid-field-structure error.  With a `null` element the property read
itself throws instead (see the counterexample). -/
theorem claim_C7 (ms : List (List Char × Json)) (fs : List Json)
    (hfld : lookupMem ms keyFields = some (Json.arr fs))
    (hnn : (fs.all fun f => f != Json.null) = true)
    (hbad : fs.all fieldOkB = false) :
    validateFormSchema (Json.obj ms) =
      Except.ok (ValidationResult.mk false (some errFieldProps)) ∧
    (optTruthy (lookupMem ms keyFormTitle) = true →
      validateAiSchema (Json.obj ms) = GenResult.err errAiField) := by
  have hloop := (fieldsLoopSplit fs hnn).2 hbad
  constructor
  · simp only [validateFormSchema, jsTruthy, typeofIsObject, getProp, hfld,
               Bool.not_true, Bool.or_self, Bool.false_or]
    simpa using hloop.1
  · intro ht
    simp only [validateAiSchema, validateAiSchemaCore, getProp, ht, hfld,
               hloop.2, not_true, if_neg, if_false]

/-- C7, witness: the amended theorem applied to the object whose one field
element lacks `label` and `type`. -/
theorem claim_C7_witness :
    validateFormSchema exBadField =
      Except.ok (ValidationResult.mk false (some errFieldProps)) ∧
    validateAiSchema exBadField = GenResult.err errAiField := by
  have h := claim_C7
    [(keyFormTitle, Json.str ['T']),
     (keyFields, Json.arr [Json.obj [(keyId, Json.str ['a'])]])]
    [Json.obj [(keyId, Json.str ['a'])]]
    (by decide) (by decide) (by decide)
  exact ⟨h.1, h.2 (by decide)⟩

/-- C7, counterexample: a `null` element in `fields` makes the import
validator throw a `TypeError` out of its boundary instead of returning the
invalid-field-structure value, and makes the AI path return the caught
fault's message, not the invalid-field-structure message. -/
theorem claim_C7_counterexample :
    validateFormSchema exNullField = Except.error (JsFault.typeErrorRead keyId) ∧
    validateAiSchema exNullField = GenResult.err (faultMessage (JsFault.typeErrorRead keyId)) ∧
    faultMessage (JsFault.typeErrorRead keyId) ≠ errAiField ∧
    faultMessage (JsFault.typeErrorRead keyId) ≠ errFieldProps := by decide

/-- C8, amended: among the candidates the depth-balanced scan collects,
the selected one has the greatest character length, and when several tie
for the greatest length the LAST one found in the scan is selected (every
candidate after the selected one is strictly shorter). -/
theorem claim_C8 (s : List Char) (h : scanObjs s ≠ []) :
    ∃ c pre post, pickLargest (scanObjs s) = some c ∧
      scanObjs s = pre ++ c :: post ∧
      (∀ x ∈ scanObjs s, x.length ≤ c.length) ∧
      ∀ x ∈ post, x.length < c.length := by
  cases hs : scanObjs s with
  | nil => exact absurd hs h
  | cons x xs =>
    obtain ⟨pre, post, hsplit, hmax, hpost⟩ := foldlPick_spec xs x
    exact ⟨_, pre, post, by simp [pickLargest], hsplit, fun a ha => hmax a (hs ▸ ha), hpost⟩

/-- C8, witness: the amended theorem applied to the two-candidate input
(where the tie makes it select the later candidate). -/
theorem claim_C8_witness :
    ∃ c pre post, pickLargest (scanObjs exC8) = some c ∧
      scanObjs exC8 = pre ++ c :: post ∧
      (∀ x ∈ scanObjs exC8, x.length ≤ c.length) ∧
      ∀ x ∈ post, x.length < c.length :=
  claim_C8 exC8 (by decide)

/-- C8, counterexample: when two collected candidates tie for the greatest
length, the reduction selects the one found later in the scan, not the
first. -/
theorem claim_C8_counterexample :
    scanObjs exC8 = [[lbrace, 'a', rbrace], [lbrace, 'b', rbrace]] ∧
    ([lbrace, 'a', rbrace] : List Char).length = ([lbrace, 'b', rbrace] : List Char).length ∧
    pickLargest (scanObjs exC8) = some [lbrace, 'b', rbrace] ∧
    ([lbrace, 'b', rbrace] : List Char) ≠ [lbrace, 'a', rbrace] := by decide

/-- C10: the depth scan counts raw braces with no string-literal
awareness, so for this input — which contains the complete decodable
object `exObjBrace` whose string value holds a closing brace — the
selected largest candidate is `exObjBrace` truncated inside its string,
its decode fails, and the whole extraction returns `Failed`. -/
theorem claim_C10 :
    extract exC10 = ExtractResult.failed (FailInfo.mk exC10 exC10) ∧
    containsSub exObjBrace exC10 = true ∧
    jsonParseFull exObjBrace = some (Json.obj [(['b'], Json.str [rbrace])]) ∧
    pickLargest (scanObjs (cleanInput exC10)) = some exTrunc ∧
    jsonParseFull exTrunc = none ∧
    exTrunc ++ [dq, rbrace] = exObjBrace := by decide

/-- C9: export/import round-trip — for every runtime-representable
(well-formed) schema value the validator has accepted, serializing it as
the export handler does (`JSON.stringify(formSchema, null, 2)`) and
decoding that text as the import handler does (`JSON.parse`) yields
exactly the original value, and re-validating it returns the same
accepting result. -/
theorem claim_C9 (v : Json) (r : ValidationResult)
    (hwf : wfJson v = true)
    (hacc : validateFormSchema v = Except.ok r) (hvalid : r.isValid = true) :
    ∃ w, jsonParseFull (stringify2 v) = some w ∧ w = v ∧
      validateFormSchema w = Except.ok r ∧ r.isValid = true :=
  ⟨v, jsonParse_stringify v hwf, rfl, hacc, hvalid⟩

/-- C9, witness: the round trip carried out on the specification's
accepted example schema. -/
theorem claim_C9_witness :
    ∃ w, jsonParseFull (stringify2 exGoodSchema) = some w ∧ w = exGoodSchema ∧
      validateFormSchema w = Except.ok (ValidationResult.mk true none) ∧
      (ValidationResult.mk true none).isValid = true :=
  claim_C9 exGoodSchema (ValidationResult.mk true none) (by decide) (by decide)
    (by decide)

end AFG
